import Mathlib

/-!
Shallow embedding of the transcript post-processing in src/whisper-service.js:
the regular-expression rewrite pipeline correctStuttering (lines 298-374) and
the post-response part of WhisperService.transcribe (lines 218-267).

JS strings are modelled as List Char: every character occurring in the source
patterns and in the data of interest lies in the Basic Multilingual Plane, so
one UTF-16 code unit corresponds to one Char.  The no-speech probabilities
(JS numbers) are modelled as rationals.

The regex dialect used by the source is small: literals, character classes,
the dot, ordered alternation, capturing groups 1 and 2, backreferences, greedy
counted repetition, and the anchors ^ and $.  Every quantifier in the source
applies to a single-character atom or to a backreference, which the embedding
exploits: repetition is implemented by a fuel-based loop over atoms whose fuel
(input length + 1) is provably sufficient because every continued iteration
consumes at least one character.  Matching returns the full list of candidate
matches in backtracking priority order (greedy first), so the head of the list
is exactly the match a JS engine selects.
-/

set_option maxRecDepth 8192

-- ### Capture slots (the source patterns use groups 1 and 2 only)

abbrev Caps := Option (List Char) × Option (List Char)

def noCaps : Caps := (none, none)

def getCap : Caps → Nat → Option (List Char)
  | c, 1 => c.1
  | c, 2 => c.2
  | _, _ => none

def setCap : Caps → Nat → List Char → Caps
  | c, 1, v => (some v, c.2)
  | c, 2, v => (c.1, some v)
  | c, _, _ => c

-- ### Regex abstract syntax

/-- The things the source puts under a quantifier: a character class,
a literal character, or a backreference. -/
inductive Atom where
  | cls : (Char → Bool) → Atom
  | lit : Char → Atom
  | bref : Nat → Atom

/-- Regexes as used by correctStuttering: atoms, concatenation, ordered
alternation, capturing groups, greedy counted repetition of an atom
(`hi = none` means unbounded), and the end anchor. -/
inductive RE where
  | atom : Atom → RE
  | seq : RE → RE → RE
  | alt : RE → RE → RE
  | grp : Nat → RE → RE
  | rep : Nat → Option Nat → Atom → RE
  | eos : RE

-- ### Matching

/-- One step of an atom: all ways to consume it from the front of `s`.
A backreference to an unset group matches the empty string (JS semantics). -/
def atomMatch : Atom → List Char → Caps → List (List Char × Caps)
  | .cls p, s, c =>
    match s with
    | [] => []
    | x :: xs => if p x then [(xs, c)] else []
  | .lit ch, s, c =>
    match s with
    | [] => []
    | x :: xs => if x = ch then [(xs, c)] else []
  | .bref i, s, c =>
    match getCap c i with
    | none => [(s, c)]
    | some v => if v.isPrefixOf s then [(s.drop v.length, c)] else []

/-- Greedy repetition `a{lo,hi}` of an atom, all candidates, longest first.
An iteration that consumes nothing ends the loop (JS stops zero-progress
repetition); fuel `s.length + 1` therefore never runs out. -/
def atomRep (a : Atom) : Nat → Nat → Option Nat → List Char → Caps → List (List Char × Caps)
  | 0, lo, _, s, c => if lo = 0 then [(s, c)] else []
  | fuel + 1, lo, hi, s, c =>
    if hi = some 0 then [(s, c)]
    else
      ((atomMatch a s c).flatMap fun rc =>
        if rc.1.length < s.length then
          atomRep a fuel (lo - 1) (hi.map (· - 1)) rc.1 rc.2
        else []) ++ (if lo = 0 then [(s, c)] else [])

/-- All candidate matches of `re` at the start of `s`, in backtracking
priority order; each result is (rest of input, captures). -/
def mtch : RE → List Char → Caps → List (List Char × Caps)
  | .atom a, s, c => atomMatch a s c
  | .seq a b, s, c => (mtch a s c).flatMap fun rc => mtch b rc.1 rc.2
  | .alt a b, s, c => mtch a s c ++ mtch b s c
  | .grp i r, s, c =>
    (mtch r s c).map fun rc => (rc.1, setCap rc.2 i (s.take (s.length - rc.1.length)))
  | .rep lo hi a, s, c => atomRep a (s.length + 1) lo hi s c
  | .eos, s, c => if s.isEmpty then [(s, c)] else []

-- ### Replacement

/-- Replacement templates: literal pieces and `$i` group references. -/
inductive TmplPart where
  | lit : List Char → TmplPart
  | grp : Nat → TmplPart

def instTmpl (t : List TmplPart) (c : Caps) : List Char :=
  t.flatMap fun p =>
    match p with
    | .lit cs => cs
    | .grp i => (getCap c i).getD []

/-- Leftmost match: position, matched length, captures. -/
def searchFrom (re : RE) : List Char → Option (Nat × Nat × Caps)
  | [] =>
    match (mtch re [] noCaps).head? with
    | some rc => some (0, ([] : List Char).length - rc.1.length, rc.2)
    | none => none
  | x :: xs =>
    match (mtch re (x :: xs) noCaps).head? with
    | some rc => some (0, (x :: xs).length - rc.1.length, rc.2)
    | none => (searchFrom re xs).map fun t => (t.1 + 1, t.2.1, t.2.2)

/-- JS String.replace with the global flag: rewrite every non-overlapping
leftmost match, resuming after the replaced span (after a zero-length match
the scan advances one character).  Each iteration consumes at least one input
character, so fuel `s.length + 1` suffices. -/
def replaceAllAux (re : RE) (t : List TmplPart) : Nat → List Char → List Char
  | 0, s => s
  | fuel + 1, s =>
    match searchFrom re s with
    | none => s
    | some (i, len, c) =>
      if len = 0 then
        match s.drop i with
        | [] => s.take i ++ instTmpl t c
        | x :: xs => s.take i ++ instTmpl t c ++ x :: replaceAllAux re t fuel xs
      else
        s.take i ++ instTmpl t c ++ replaceAllAux re t fuel (s.drop (i + len))

def replaceAll (re : RE) (t : List TmplPart) (s : List Char) : List Char :=
  replaceAllAux re t (s.length + 1) s

/-- JS String.replace without the global flag: rewrite the leftmost match. -/
def replaceFirst (re : RE) (t : List TmplPart) (s : List Char) : List Char :=
  match searchFrom re s with
  | none => s
  | some (i, len, c) => s.take i ++ instTmpl t c ++ s.drop (i + len)

/-- JS String.replace of a ^-anchored pattern: only a match at position 0. -/
def replaceStart (re : RE) (t : List TmplPart) (s : List Char) : List Char :=
  match (mtch re s noCaps).head? with
  | none => s
  | some rc => instTmpl t rc.2 ++ rc.1

-- ### Character classes of the source patterns

/-- JS `.` without the s flag: anything but a line terminator. -/
def dotCls (c : Char) : Bool :=
  !(c = '\n' || c = '\r' || c = '\u2028' || c = '\u2029')

/-- JS `\s` (which is also the character set JS String.trim strips). -/
def jsWs (c : Char) : Bool :=
  c = ' ' || c = '\t' || c = '\n' || c = '\u000b' || c = '\u000c' || c = '\r' ||
  c = '\u00a0' || c = '\u1680' || ('\u2000' ≤ c && c ≤ '\u200a') ||
  c = '\u2028' || c = '\u2029' || c = '\u202f' || c = '\u205f' ||
  c = '\u3000' || c = '\ufeff'

/-- `[ぁ-ん]` -/
def isHira (c : Char) : Bool := 'ぁ' ≤ c && c ≤ 'ん'

/-- `[ァ-ヶ]` -/
def isKata (c : Char) : Bool := 'ァ' ≤ c && c ≤ 'ヶ'

/-- `[ぁ-んァ-ヶ]` -/
def isHiraKata (c : Char) : Bool := isHira c || isKata c

/-- `[一-龯々]` -/
def isKanji (c : Char) : Bool := ('一' ≤ c && c ≤ '龯') || c = '々'

/-- `[、。,.\s]` -/
def punctFull (c : Char) : Bool := c = '、' || c = '。' || c = ',' || c = '.' || jsWs c

/-- `[、,\s]` -/
def punctComma (c : Char) : Bool := c = '、' || c = ',' || jsWs c

/-- `[、,]` -/
def commaOnly (c : Char) : Bool := c = '、' || c = ','

/-- `[っと]` -/
def tsutoCls (c : Char) : Bool := c = 'っ' || c = 'と'

-- ### The rewrite steps of correctStuttering, in source order

inductive RepKind where
  | all : RepKind
  | first : RepKind
  | atStart : RepKind

structure Step where
  re : RE
  tmpl : List TmplPart
  kind : RepKind

def applyStep (s : List Char) (st : Step) : List Char :=
  match st.kind with
  | .all => replaceAll st.re st.tmpl s
  | .first => replaceFirst st.re st.tmpl s
  | .atStart => replaceStart st.re st.tmpl s

-- line 306: corrected.replace(/(.{2,8})\1{1,}/g, '$1')
def reRule1 : RE :=
  .seq (.grp 1 (.rep 2 (some 8) (.cls dotCls))) (.rep 1 none (.bref 1))

def step1 : Step := ⟨reRule1, [.grp 1], .all⟩

-- line 309: corrected.replace(/(.{2,10})[、。,.\s]+\1/g, '$1')
def step2 : Step :=
  ⟨.seq (.grp 1 (.rep 2 (some 10) (.cls dotCls)))
    (.seq (.rep 1 none (.cls punctFull)) (.atom (.bref 1))), [.grp 1], .all⟩

-- line 315: corrected.replace(/([ぁ-ん])\1{2,}/g, '$1')
def step3 : Step :=
  ⟨.seq (.grp 1 (.atom (.cls isHira))) (.rep 2 none (.bref 1)), [.grp 1], .all⟩

-- line 317: corrected.replace(/([ァ-ヶ])\1{2,}/g, '$1')
def step4 : Step :=
  ⟨.seq (.grp 1 (.atom (.cls isKata))) (.rep 2 none (.bref 1)), [.grp 1], .all⟩

-- line 321: corrected.replace(/([ぁ-ん])\1([ぁ-ん])/g, '$1$2')
def step5 : Step :=
  ⟨.seq (.grp 1 (.atom (.cls isHira)))
    (.seq (.atom (.bref 1)) (.grp 2 (.atom (.cls isHira)))), [.grp 1, .grp 2], .all⟩

-- line 322: corrected.replace(/([ァ-ヶ])\1([ァ-ヶ])/g, '$1$2')
def step6 : Step :=
  ⟨.seq (.grp 1 (.atom (.cls isKata)))
    (.seq (.atom (.bref 1)) (.grp 2 (.atom (.cls isKata)))), [.grp 1, .grp 2], .all⟩

-- line 325: corrected.replace(/([ぁ-んァ-ヶ])[、,\s]+\1[、,\s]*\1*/g, '$1')
def step7 : Step :=
  ⟨.seq (.grp 1 (.atom (.cls isHiraKata)))
    (.seq (.rep 1 none (.cls punctComma))
      (.seq (.atom (.bref 1))
        (.seq (.rep 0 none (.cls punctComma)) (.rep 0 none (.bref 1))))), [.grp 1], .all⟩

-- line 328: corrected.replace(/([ぁ-んァ-ヶ]{1,3})[、,\s]+\1[、,\s]*/g, '$1')
def step8 : Step :=
  ⟨.seq (.grp 1 (.rep 1 (some 3) (.cls isHiraKata)))
    (.seq (.rep 1 none (.cls punctComma))
      (.seq (.atom (.bref 1)) (.rep 0 none (.cls punctComma)))), [.grp 1], .all⟩

-- line 334: corrected.replace(/([ぁ-ん])[、,]+\1*([一-龯々])/g, (m, kana, kanji) => kanji)
def step9 : Step :=
  ⟨.seq (.grp 1 (.atom (.cls isHira)))
    (.seq (.rep 1 none (.cls commaOnly))
      (.seq (.rep 0 none (.bref 1)) (.grp 2 (.atom (.cls isKanji))))), [.grp 2], .all⟩

-- line 341: corrected.replace(/ー{2,}/g, 'ー')
def step10 : Step := ⟨.rep 2 none (.lit 'ー'), [.lit ['ー']], .all⟩

-- line 344: corrected.replace(/っ{2,}/g, 'っ')
def step11 : Step := ⟨.rep 2 none (.lit 'っ'), [.lit ['っ']], .all⟩

-- line 347: corrected.replace(/…{2,}/g, '…')
def step12 : Step := ⟨.rep 2 none (.lit '…'), [.lit ['…']], .all⟩

/-- The filler alternation (えー|あー|うー|あの|えっと|まあ|その|なんか),
in source order.  The i flag on the source regexes is immaterial: none of
these characters has a case mapping. -/
def fillerAlt : RE :=
  .alt (.seq (.atom (.lit 'え')) (.atom (.lit 'ー')))
    (.alt (.seq (.atom (.lit 'あ')) (.atom (.lit 'ー')))
      (.alt (.seq (.atom (.lit 'う')) (.atom (.lit 'ー')))
        (.alt (.seq (.atom (.lit 'あ')) (.atom (.lit 'の')))
          (.alt (.seq (.atom (.lit 'え')) (.seq (.atom (.lit 'っ')) (.atom (.lit 'と'))))
            (.alt (.seq (.atom (.lit 'ま')) (.atom (.lit 'あ')))
              (.alt (.seq (.atom (.lit 'そ')) (.atom (.lit 'の')))
                (.seq (.atom (.lit 'な')) (.seq (.atom (.lit 'ん')) (.atom (.lit 'か'))))))))))

-- line 352: corrected.replace(/(filler)[、,\s]+(filler)[、,\s]*/gi, '$1、')
def step13 : Step :=
  ⟨.seq (.grp 1 fillerAlt)
    (.seq (.rep 1 none (.cls punctComma))
      (.seq (.grp 2 fillerAlt) (.rep 0 none (.cls punctComma)))),
    [.grp 1, .lit ['、']], .all⟩

/-- The leading-filler alternation (えー[っと]*|あー|うー|あの[ー]*|えっと|まあ|その|なんか). -/
def leadFillerAlt : RE :=
  .alt (.seq (.atom (.lit 'え')) (.seq (.atom (.lit 'ー')) (.rep 0 none (.cls tsutoCls))))
    (.alt (.seq (.atom (.lit 'あ')) (.atom (.lit 'ー')))
      (.alt (.seq (.atom (.lit 'う')) (.atom (.lit 'ー')))
        (.alt (.seq (.atom (.lit 'あ')) (.seq (.atom (.lit 'の')) (.rep 0 none (.lit 'ー'))))
          (.alt (.seq (.atom (.lit 'え')) (.seq (.atom (.lit 'っ')) (.atom (.lit 'と'))))
            (.alt (.seq (.atom (.lit 'ま')) (.atom (.lit 'あ')))
              (.alt (.seq (.atom (.lit 'そ')) (.atom (.lit 'の')))
                (.seq (.atom (.lit 'な')) (.seq (.atom (.lit 'ん')) (.atom (.lit 'か'))))))))))

-- line 355: corrected.replace(/^(えー[っと]*|あー|うー|あの[ー]*|えっと|まあ|その|なんか)[、,\s]*/i, '')
def step14 : Step :=
  ⟨.seq leadFillerAlt (.rep 0 none (.cls punctComma)), [], .atStart⟩

-- line 360 (first part): corrected.replace(/^[、,\s]+/, '')
def step15 : Step := ⟨.rep 1 none (.cls punctComma), [], .atStart⟩

-- line 360 (second part): corrected.replace(/[、,\s]+$/, '')
def step16 : Step := ⟨.seq (.rep 1 none (.cls punctComma)) .eos, [], .first⟩

-- line 363: corrected.replace(/、{2,}/g, '、')
def step17 : Step := ⟨.rep 2 none (.lit '、'), [.lit ['、']], .all⟩

-- line 366: corrected.replace(/\s{2,}/g, ' ')
def step18 : Step := ⟨.rep 2 none (.cls jsWs), [.lit [' ']], .all⟩

def stutterSteps : List Step :=
  [step1, step2, step3, step4, step5, step6, step7, step8, step9, step10,
   step11, step12, step13, step14, step15, step16, step17, step18]

def correctStutteringL (s : List Char) : List Char :=
  stutterSteps.foldl applyStep s

/-- correctStuttering (src/whisper-service.js lines 298-374).  The guard
`if (!text) return text` returns any falsy input unchanged; for strings the
only falsy value is the empty string. -/
def correctStuttering (s : String) : String :=
  if s = "" then s else String.mk (correctStutteringL s.data)

-- ### WhisperService.transcribe, post-response part (lines 218-267)

structure WhisperSegment where
  text : String
  no_speech_prob : Option ℚ

structure WhisperResult where
  text : Option String
  segments : Option (List WhisperSegment)

/-- JS `x || ''` where x is a string or absent: an absent field gives '',
a string gives itself (the only falsy string is '', and '' || '' is ''). -/
def jsOrEmpty : Option String → String
  | none => ""
  | some s => s

/-- JS String.trim: strip \s (plus line terminators, a subset of jsWs) from
both ends. -/
def jsTrim (s : String) : String :=
  String.mk (((s.data.dropWhile jsWs).reverse.dropWhile jsWs).reverse)

/-- Contiguous substring test on character lists. -/
def hasInfix : List Char → List Char → Bool
  | s, p =>
    if p.isPrefixOf s then true else
      match s with
      | [] => false
      | _ :: xs => hasInfix xs p

/-- JS String.includes: contiguous substring test. -/
def jsIncludes (s phrase : String) : Bool :=
  hasInfix s.data phrase.data

/-- Line 221: result.segments.reduce((sum, s) => sum + (s.no_speech_prob || 0), 0)
divided by the segment count; a missing probability contributes 0 (for the
number 0 itself, `0 || 0` is also 0). -/
def avgNoSpeech (segs : List WhisperSegment) : ℚ :=
  ((segs.map fun sg => sg.no_speech_prob.getD 0).sum) / (segs.length : ℚ)

/-- Lines 231-240. -/
def hallucinations : List String :=
  ["ご視聴ありがとうございました",
   "ありがとうございました",
   "チャンネル登録",
   "いいねボタン",
   "字幕",
   "ご覧いただき",
   "お疲れ様でした",
   "よろしくお願いします"]

/-- Lines 254-259: walk the list pushing entries that differ from the
immediately preceding entry of the (trimmed, nonempty-filtered) list. -/
def dedupAdjAux : String → List String → List String
  | _, [] => []
  | prev, x :: xs => if x ≠ prev then x :: dedupAdjAux x xs else dedupAdjAux x xs

def dedupAdj : List String → List String
  | [] => []
  | x :: xs => x :: dedupAdjAux x xs

/-- The cleaned segment texts of line 252. -/
def segTexts (segs : List WhisperSegment) : List String :=
  (segs.map fun sg => jsTrim sg.text).filter fun t => t.length > 0

/-- transcribe, lines 218-267: the processing applied to the parsed API
response.  The for-loop over hallucination phrases with early return is the
`any` of (phrase is a substring of the raw text) && (avg > 0.3). -/
def transcribe (result : WhisperResult) : String :=
  match result.segments with
  | some segs =>
    if segs.length > 0 then
      if avgNoSpeech segs > 1/2 then ""
      else
        if hallucinations.any
            (fun phrase => jsIncludes (jsOrEmpty result.text) phrase &&
              decide (avgNoSpeech segs > 3/10)) then ""
        else
          if (segTexts segs).length > 1 then
            if (dedupAdj (segTexts segs)).length < (segTexts segs).length then
              String.join (dedupAdj (segTexts segs))
            else jsOrEmpty result.text
          else jsOrEmpty result.text
    else jsOrEmpty result.text
  | none => jsOrEmpty result.text

-- ### Spec-modelled variants (used to state refinement/ordering claims)

/-- Modelled from the spec (§4.1, claim C2's reading): the same filtering in
which consecutive-duplicate segments are collapsed *before* the denylist
check, so the denylist scans the already-deduplicated concatenation and the
deduplicated concatenation is what a non-suppressed result returns. -/
def transcribeDedupFirst (result : WhisperResult) : String :=
  match result.segments with
  | some segs =>
    if segs.length > 0 then
      if avgNoSpeech segs > 1/2 then ""
      else
        if hallucinations.any
            (fun phrase => jsIncludes (String.join (dedupAdj (segTexts segs))) phrase &&
              decide (avgNoSpeech segs > 3/10)) then ""
        else String.join (dedupAdj (segTexts segs))
    else jsOrEmpty result.text
  | none => jsOrEmpty result.text

/-- Modelled from the spec (§4.3 contract wording): keep a segment unless it
equals the immediately preceding *kept* segment. -/
def specKeepDedupAux (kept : String) : List String → List String
  | [] => []
  | x :: xs => if x = kept then specKeepDedupAux kept xs else x :: specKeepDedupAux x xs

def specKeepDedup : List String → List String
  | [] => []
  | x :: xs => x :: specKeepDedupAux x xs

-- ### Shrinking rules (every source rewrite strictly shortens what it rewrites)

/-- A rule is shrinking when every match it can produce (from fresh captures)
instantiates its template to something strictly shorter than the matched
span. -/
def ShrinkRule (re : RE) (t : List TmplPart) : Prop :=
  ∀ (s r : List Char) (c' : Caps), (r, c') ∈ mtch re s noCaps →
    (instTmpl t c').length + r.length < s.length

-- ### Match detection (used to state the no-match identity property)

/-- Does a step's pattern match anywhere in `s` (at position 0 for the
^-anchored steps)?  This is exactly the condition under which the
corresponding JS String.replace rewrites something. -/
def stepMatches (st : Step) (s : List Char) : Bool :=
  match st.kind with
  | .atStart => !(mtch st.re s noCaps).isEmpty
  | .first => (searchFrom st.re s).isSome
  | .all => (searchFrom st.re s).isSome

-- ### Helper lemmas about the whisper filter

theorem transcribe_some_pos (r : WhisperResult) (segs : List WhisperSegment)
    (hs : r.segments = some segs) (hpos : 0 < segs.length) :
    transcribe r =
      (if avgNoSpeech segs > 1/2 then ""
       else
        if hallucinations.any
            (fun phrase => jsIncludes (jsOrEmpty r.text) phrase &&
              decide (avgNoSpeech segs > 3/10)) then ""
        else
          if (segTexts segs).length > 1 then
            if (dedupAdj (segTexts segs)).length < (segTexts segs).length then
              String.join (dedupAdj (segTexts segs))
            else jsOrEmpty r.text
          else jsOrEmpty r.text) := by
  unfold transcribe
  rw [hs]
  simp [hpos]

-- ### C5

/-- C5: for every transcription result with a non-empty segments list whose
mean no-speech probability exceeds 0.5, transcribe returns the empty string,
regardless of the transcribed text content. -/
theorem transcribe_suppresses_high_no_speech (r : WhisperResult)
    (segs : List WhisperSegment) (hs : r.segments = some segs) (hne : segs ≠ [])
    (havg : avgNoSpeech segs > 1/2) : transcribe r = "" := by
  rw [transcribe_some_pos r segs hs (List.length_pos.mpr hne), if_pos havg]

/-- Witness for C5 at a concrete suppressed result. -/
theorem transcribe_suppresses_high_no_speech_witness :
    transcribe ⟨some ("こんにちは"), some [⟨"こんにちは", some 1⟩]⟩ = "" :=
  transcribe_suppresses_high_no_speech _ [⟨"こんにちは", some 1⟩] rfl
    (List.cons_ne_nil _ _) (by norm_num [avgNoSpeech])

-- ### C6

/-- C6: for every result with non-empty segments whose mean no-speech
probability is not above 0.5, if some denylisted phrase is a substring of the
full text and the mean exceeds 0.3, transcribe returns the empty string. -/
theorem transcribe_suppresses_denylist_phrase (r : WhisperResult)
    (segs : List WhisperSegment) (hs : r.segments = some segs) (hne : segs ≠ [])
    (hle : ¬ avgNoSpeech segs > 1/2) (hgt : avgNoSpeech segs > 3/10)
    (hp : ∃ phrase ∈ hallucinations, jsIncludes (jsOrEmpty r.text) phrase = true) :
    transcribe r = "" := by
  rw [transcribe_some_pos r segs hs (List.length_pos.mpr hne), if_neg hle, if_pos ?_]
  rw [List.any_eq_true]
  obtain ⟨p, hmem, hinc⟩ := hp
  exact ⟨p, hmem, by simp [hinc, hgt]⟩

/-- Witness for C6: the spec's own example, a denylisted phrase with a single
segment of no-speech probability 0.4. -/
theorem transcribe_suppresses_denylist_phrase_witness :
    transcribe ⟨some ("ご視聴ありがとうございました"), some [⟨"...", some (2/5)⟩]⟩ = "" :=
  transcribe_suppresses_denylist_phrase _ [⟨"...", some (2/5)⟩] rfl
    (List.cons_ne_nil _ _) (by norm_num [avgNoSpeech]) (by norm_num [avgNoSpeech])
    ⟨"ご視聴ありがとうございました", by simp [hallucinations], by decide⟩

-- ### C7

/-- C7: a result whose segments list is absent or empty is never suppressed:
the full text field is returned as-is even if it contains a denylisted
phrase. -/
theorem transcribe_no_segments_returns_text (r : WhisperResult)
    (h : r.segments = none ∨ r.segments = some []) :
    transcribe r = jsOrEmpty r.text := by
  rcases h with h | h
  · unfold transcribe; rw [h]
  · unfold transcribe; rw [h]; simp

/-- Witness for C7: a denylisted phrase with no segments is returned as-is. -/
theorem transcribe_no_segments_returns_text_witness :
    transcribe ⟨some ("ご視聴ありがとうございました"), none⟩ = "ご視聴ありがとうございました" :=
  transcribe_no_segments_returns_text ⟨some ("ご視聴ありがとうございました"), none⟩ (Or.inl rfl)

-- ### C10

/-- C10: in the mean over a non-empty segments list, a segment with a missing
no-speech probability contributes 0 to the sum: replacing the missing value by
an explicit 0 leaves the average unchanged, and filling it with any
non-negative probability can only raise the average, so missing values bias
the decision against suppression. -/
theorem avgNoSpeech_missing_prob_counts_zero (segs : List WhisperSegment)
    (i : Nat) (sg : WhisperSegment) (p : ℚ) (hget : segs[i]? = some sg)
    (hnone : sg.no_speech_prob = none) (hp : 0 ≤ p) :
    avgNoSpeech segs = avgNoSpeech (segs.set i ⟨sg.text, some 0⟩) ∧
    avgNoSpeech segs ≤ avgNoSpeech (segs.set i ⟨sg.text, some p⟩) := by
  obtain ⟨hi, hsg⟩ := List.getElem?_eq_some_iff.mp hget
  have key : ∀ x : WhisperSegment,
      ((segs.set i x).map fun s => s.no_speech_prob.getD 0).sum
        = ((segs.map fun s => s.no_speech_prob.getD 0).sum) + x.no_speech_prob.getD 0 := by
    intro x
    rw [List.map_set, List.sum_set']
    rw [dif_pos (by simpa using hi)]
    rw [List.getElem_map, hsg, hnone]
    simp
  have hlen : ∀ x : WhisperSegment, (segs.set i x).length = segs.length :=
    fun x => List.length_set segs i x
  have hpos : (0 : ℚ) < (segs.length : ℚ) := by
    exact_mod_cast Nat.lt_of_le_of_lt (Nat.zero_le i) hi
  constructor
  · unfold avgNoSpeech
    rw [key, hlen]
    simp
  · unfold avgNoSpeech
    rw [key, hlen]
    rw [div_le_div_iff_of_pos_right hpos]
    simpa using hp

/-- Witness for C10 at a one-segment list with a missing probability. -/
theorem avgNoSpeech_missing_prob_counts_zero_witness :
    avgNoSpeech [⟨"a", none⟩] = avgNoSpeech [⟨"a", some 0⟩] ∧
    avgNoSpeech [⟨"a", none⟩] ≤ avgNoSpeech [⟨"a", some (1/2)⟩] :=
  avgNoSpeech_missing_prob_counts_zero [⟨"a", none⟩] 0 ⟨"a", none⟩ (1/2)
    rfl rfl (by norm_num)

-- ### C8

theorem dedupAdjAux_eq_specKeepDedupAux (xs : List String) :
    ∀ prev : String, dedupAdjAux prev xs = specKeepDedupAux prev xs := by
  induction xs with
  | nil => intro prev; rfl
  | cons x xs ih =>
    intro prev
    unfold dedupAdjAux specKeepDedupAux
    by_cases h : x = prev
    · subst h
      simp [ih]
    · simp [h, ih]

/-- C8: the segment de-duplication drops exactly the segments whose trimmed
text equals the immediately preceding kept segment's trimmed text and joins
the survivors with no separator; on segments よし, よし, 行くぞ the returned
concatenation is よし行くぞ. -/
theorem transcribe_dedups_adjacent_segments :
    (∀ l : List String, dedupAdj l = specKeepDedup l) ∧
    transcribe ⟨some ("よしよし行くぞ"),
      some [⟨"よし", some 0⟩, ⟨"よし", some 0⟩, ⟨"行くぞ", some 0⟩]⟩ = "よし行くぞ" := by
  constructor
  · intro l
    cases l with
    | nil => rfl
    | cons x xs =>
      show x :: dedupAdjAux x xs = x :: specKeepDedupAux x xs
      rw [dedupAdjAux_eq_specKeepDedupAux]
  · have h0 : avgNoSpeech [⟨"よし", some 0⟩, ⟨"よし", some 0⟩, ⟨"行くぞ", some 0⟩] = 0 := by
      norm_num [avgNoSpeech]
    rw [transcribe_some_pos _ _ rfl (by simp)]
    rw [if_neg (by rw [h0]; norm_num)]
    rw [if_neg ?hany]
    · decide
    case hany =>
      have hdec :
          decide (avgNoSpeech [⟨"よし", some 0⟩, ⟨"よし", some 0⟩, ⟨"行くぞ", some 0⟩] > 3/10)
            = false := decide_eq_false (by rw [h0]; norm_num)
      simp [hdec]

-- ### C2 (counterexample and amended statement)

/-- C2 counterexample: the denylist check runs on the raw full-text field,
not on the deduplicated segment concatenation, and it runs first.  On a
result whose raw text contains a denylisted phrase while its deduplicated
segment concatenation (あり) does not, the code suppresses, while the
spec-modelled dedup-first filter returns あり. -/
theorem transcribe_denylist_scans_raw_not_deduped :
    transcribe ⟨some ("ご視聴ありがとうございました"),
        some [⟨"あり", some (2/5)⟩, ⟨"あり", some (2/5)⟩]⟩ ≠
      transcribeDedupFirst ⟨some ("ご視聴ありがとうございました"),
        some [⟨"あり", some (2/5)⟩, ⟨"あり", some (2/5)⟩]⟩ ∧
    transcribe ⟨some ("ご視聴ありがとうございました"),
        some [⟨"あり", some (2/5)⟩, ⟨"あり", some (2/5)⟩]⟩ = "" ∧
    transcribeDedupFirst ⟨some ("ご視聴ありがとうございました"),
        some [⟨"あり", some (2/5)⟩, ⟨"あり", some (2/5)⟩]⟩ = "あり" := by
  have h0 : avgNoSpeech [⟨"あり", some (2/5)⟩, ⟨"あり", some (2/5)⟩] = 2/5 := by
    norm_num [avgNoSpeech]
  have hdec : decide (avgNoSpeech [⟨"あり", some (2/5)⟩, ⟨"あり", some (2/5)⟩] > 3/10)
      = true := decide_eq_true (by rw [h0]; norm_num)
  have hcode : transcribe ⟨some ("ご視聴ありがとうございました"),
      some [⟨"あり", some (2/5)⟩, ⟨"あり", some (2/5)⟩]⟩ = "" := by
    rw [transcribe_some_pos _ _ rfl (by simp)]
    rw [if_neg (by rw [h0]; norm_num)]
    rw [if_pos ?hany]
    case hany =>
      rw [List.any_eq_true]
      refine ⟨"ご視聴ありがとうございました", by simp [hallucinations], ?_⟩
      rw [hdec]
      decide
  have hspec : transcribeDedupFirst ⟨some ("ご視聴ありがとうございました"),
      some [⟨"あり", some (2/5)⟩, ⟨"あり", some (2/5)⟩]⟩ = "あり" := by
    unfold transcribeDedupFirst
    simp only []
    rw [if_pos (by simp), if_neg (by rw [h0]; norm_num), if_neg ?hany2]
    · decide
    case hany2 =>
      rw [Bool.not_eq_true, List.any_eq_false]
      intro p hp
      have hj : jsIncludes
          (String.join (dedupAdj (segTexts [⟨"あり", some (2/5)⟩, ⟨"あり", some (2/5)⟩])))
          p = false := by
        fin_cases hp <;> decide
      simp [hj]
  exact ⟨by rw [hcode, hspec]; decide, hcode, hspec⟩

/-- C2 amended: the denylist check is applied to the raw full-text field and
runs before the segment de-duplication; de-duplication only shapes the
returned text of a non-suppressed result.  Part one: a denylisted phrase in
the raw text together with a mean no-speech probability above 0.3 suppresses,
whatever the segment duplicate structure.  Part two: when nothing suppresses
and duplicates exist, the returned text is the deduplicated concatenation. -/
theorem transcribe_denylist_before_dedup :
    (∀ (r : WhisperResult) (segs : List WhisperSegment),
      r.segments = some segs → segs ≠ [] →
      (∃ phrase ∈ hallucinations, jsIncludes (jsOrEmpty r.text) phrase = true) →
      avgNoSpeech segs > 3/10 → transcribe r = "") ∧
    (∀ (r : WhisperResult) (segs : List WhisperSegment),
      r.segments = some segs → ¬ avgNoSpeech segs > 1/2 →
      (hallucinations.any fun phrase =>
        jsIncludes (jsOrEmpty r.text) phrase && decide (avgNoSpeech segs > 3/10)) = false →
      (segTexts segs).length > 1 →
      (dedupAdj (segTexts segs)).length < (segTexts segs).length →
      transcribe r = String.join (dedupAdj (segTexts segs))) := by
  constructor
  · intro r segs hs hne hp hgt
    rw [transcribe_some_pos r segs hs (List.length_pos.mpr hne)]
    by_cases hhigh : avgNoSpeech segs > 1/2
    · rw [if_pos hhigh]
    · rw [if_neg hhigh, if_pos ?_]
      rw [List.any_eq_true]
      obtain ⟨p, hmem, hinc⟩ := hp
      exact ⟨p, hmem, by simp [hinc, hgt]⟩
  · intro r segs hs h2 h3 h4 h5
    have hpos : 0 < segs.length := by
      rcases segs with _ | ⟨a, as⟩
      · simp [segTexts] at h4
      · simp
    rw [transcribe_some_pos r segs hs hpos, if_neg h2, if_neg (by simp [h3]),
      if_pos h4, if_pos h5]

/-- Witness for the amended C2 at concrete inputs for both parts. -/
theorem transcribe_denylist_before_dedup_witness :
    transcribe ⟨some ("字幕テスト"), some [⟨"x", some (2/5)⟩]⟩ = "" ∧
    transcribe ⟨some ("テストテスト"),
      some [⟨"テスト", some (1/10)⟩, ⟨"テスト", some (1/10)⟩]⟩ = "テスト" := by
  constructor
  · exact transcribe_denylist_before_dedup.1 _ [⟨"x", some (2/5)⟩] rfl
      (List.cons_ne_nil _ _) ⟨"字幕", by simp [hallucinations], by decide⟩
      (by norm_num [avgNoSpeech])
  · refine (transcribe_denylist_before_dedup.2 _
      [⟨"テスト", some (1/10)⟩, ⟨"テスト", some (1/10)⟩] rfl
      (by norm_num [avgNoSpeech]) ?_ (by decide) (by decide)).trans (by decide)
    rw [List.any_eq_false]
    intro p hp
    have hj : jsIncludes (jsOrEmpty (some ("テストテスト"))) p = false := by
      fin_cases hp <;> decide
    simp [hj]

-- ### C4 (counterexample and amended statement)

/-- C4 counterexample: the claimed output 今日は学校に行った is not what the
code produces on えっと、今日は学校に行った. -/
theorem correctStuttering_etto_counterexample :
    correctStuttering ("えっと、今日は学校に行った") ≠ "今日は学校に行った" := by decide

/-- C4 amended: on えっと、今日は学校に行った the word-initial
kana-before-kanji elision (line 334) fires first, rewriting と、今 to 今, so
the filler fragment えっ survives and the leading-filler strip (line 355) no
longer matches: the result is えっ今日は学校に行った. -/
theorem correctStuttering_etto_example :
    correctStuttering ("えっと、今日は学校に行った") = "えっ今日は学校に行った" := by decide

-- ### C1 counterexample and C3 counterexample

/-- C1 counterexample: correctStuttering is not idempotent.  On aaaaaaaa the
first rule collapses the 4-character square to aaaa; re-applying collapses
the new 2-character square to aa. -/
theorem correctStuttering_not_idempotent :
    correctStuttering (correctStuttering ("aaaaaaaa")) ≠
      correctStuttering ("aaaaaaaa") := by decide

/-- C3 counterexample: a 9-character phrase immediately repeated verbatim is
not collapsed, neither by the first rule alone nor by the whole normalizer:
the first rule's window is 2-8 characters, not 2-10. -/
theorem rule1_nine_char_repeat_not_collapsed :
    applyStep (("abcdefghiabcdefghi").data) step1 = ("abcdefghiabcdefghi").data ∧
    correctStuttering ("abcdefghiabcdefghi") ≠ "abcdefghi" := ⟨by decide, by decide⟩

-- ### C9

theorem replaceAllAux_no_match (re : RE) (t : List TmplPart) (s : List Char)
    (h : searchFrom re s = none) : ∀ fuel, replaceAllAux re t fuel s = s := by
  intro fuel
  cases fuel with
  | zero => rfl
  | succ n => unfold replaceAllAux; rw [h]

theorem applyStep_id_of_no_match (s : List Char) (st : Step)
    (h : stepMatches st s = false) : applyStep s st = s := by
  rcases st with ⟨re, t, k⟩
  cases k
  case all =>
    have hsf : searchFrom re s = none := by
      cases hsf : searchFrom re s with
      | none => rfl
      | some m => rw [stepMatches, hsf] at h; simp at h
    show replaceAll re t s = s
    exact replaceAllAux_no_match re t s hsf _
  case first =>
    have hsf : searchFrom re s = none := by
      cases hsf : searchFrom re s with
      | none => rfl
      | some m => rw [stepMatches, hsf] at h; simp at h
    show replaceFirst re t s = s
    unfold replaceFirst
    rw [hsf]
  case atStart =>
    have hm : (mtch re s noCaps).head? = none := by
      rw [stepMatches] at h
      simp only [Bool.not_eq_false'] at h
      rw [List.isEmpty_iff] at h
      rw [h]
      rfl
    show replaceStart re t s = s
    unfold replaceStart
    rw [hm]

theorem foldl_applyStep_id (steps : List Step) (s : List Char)
    (h : ∀ st ∈ steps, stepMatches st s = false) :
    steps.foldl applyStep s = s := by
  induction steps with
  | nil => rfl
  | cons st rest ih =>
    rw [List.foldl_cons, applyStep_id_of_no_match s st (h st (by simp))]
    exact ih fun st' hst' => h st' (by simp [hst'])

/-- C9: correctStuttering is a total function of the input string (totality
is inherent to the Lean embedding), and when no rewrite rule's pattern
matches the input it returns the input unchanged. -/
theorem correctStuttering_id_of_no_match (s : String)
    (h : ∀ st ∈ stutterSteps, stepMatches st s.data = false) :
    correctStuttering s = s := by
  unfold correctStuttering
  by_cases hs : s = ""
  · rw [if_pos hs]
  · rw [if_neg hs]
    unfold correctStutteringL
    rw [foldl_applyStep_id stutterSteps s.data h]

/-- Witness for C9: no rule pattern matches abc, and it is returned as-is. -/
theorem correctStuttering_id_of_no_match_witness :
    correctStuttering ("abc") = "abc" :=
  correctStuttering_id_of_no_match ("abc") (by decide)

-- ### Engine lemmas: consumption bounds of matches

theorem atomMatch_cls_spec (p : Char → Bool) (s : List Char) (c : Caps)
    (r : List Char) (c' : Caps) (h : (r, c') ∈ atomMatch (.cls p) s c) :
    c' = c ∧ r.length + 1 = s.length := by
  cases s with
  | nil => simp [atomMatch] at h
  | cons x xs =>
    simp only [atomMatch] at h
    by_cases hp : p x
    · rw [if_pos hp] at h
      simp at h
      obtain ⟨h1, h2⟩ := h
      subst h1; subst h2
      simp
    · rw [if_neg hp] at h
      simp at h

theorem atomMatch_lit_spec (ch : Char) (s : List Char) (c : Caps)
    (r : List Char) (c' : Caps) (h : (r, c') ∈ atomMatch (.lit ch) s c) :
    c' = c ∧ r.length + 1 = s.length := by
  cases s with
  | nil => simp [atomMatch] at h
  | cons x xs =>
    simp only [atomMatch] at h
    by_cases hx : x = ch
    · rw [if_pos hx] at h
      simp at h
      obtain ⟨h1, h2⟩ := h
      subst h1; subst h2
      simp
    · rw [if_neg hx] at h
      simp at h

theorem atomMatch_bref_spec (i : Nat) (s : List Char) (c : Caps)
    (r : List Char) (c' : Caps) (h : (r, c') ∈ atomMatch (.bref i) s c) :
    c' = c ∧ r.length + ((getCap c i).getD []).length = s.length := by
  cases hg : getCap c i with
  | none =>
    simp only [atomMatch, hg] at h
    simp at h
    obtain ⟨h1, h2⟩ := h
    subst h1; subst h2
    simp [hg]
  | some v =>
    simp only [atomMatch, hg] at h
    by_cases hpre : v.isPrefixOf s
    · rw [if_pos hpre] at h
      simp at h
      obtain ⟨h1, h2⟩ := h
      subst h1; subst h2
      have hvle : v.length ≤ s.length :=
        (List.isPrefixOf_iff_prefix.mp hpre).length_le
      simp [hg]
      omega
    · rw [if_neg hpre] at h
      simp at h

/-- Any result of a greedy atom repetition keeps the captures and consumes at
least `lo` copies of the atom's consumption. -/
theorem atomRep_lower (a : Atom) (c : Caps) (δ : Nat)
    (hA : ∀ s r c', (r, c') ∈ atomMatch a s c → c' = c ∧ r.length + δ ≤ s.length) :
    ∀ fuel lo hi (s r : List Char) (c' : Caps),
      (∀ hh, hi = some hh → lo ≤ hh) →
      (r, c') ∈ atomRep a fuel lo hi s c →
      c' = c ∧ r.length + lo * δ ≤ s.length := by
  intro fuel
  induction fuel with
  | zero =>
    intro lo hi s r c' hside h
    simp only [atomRep] at h
    by_cases hlo : lo = 0
    · rw [if_pos hlo] at h
      simp at h
      obtain ⟨h1, h2⟩ := h
      subst h1; subst h2
      simp [hlo]
    · rw [if_neg hlo] at h
      simp at h
  | succ n ih =>
    intro lo hi s r c' hside h
    simp only [atomRep] at h
    by_cases hhi : hi = some 0
    · rw [if_pos hhi] at h
      simp at h
      obtain ⟨h1, h2⟩ := h
      subst h1; subst h2
      have hlo : lo = 0 := Nat.le_zero.mp (hside 0 hhi)
      simp [hlo]
    · rw [if_neg hhi] at h
      rw [List.mem_append] at h
      rcases h with h | h
      · rw [List.mem_flatMap] at h
        obtain ⟨rc, hrc, hmem⟩ := h
        obtain ⟨hceq, hlen1⟩ := hA s rc.1 rc.2 (by simpa using hrc)
        by_cases hprog : rc.1.length < s.length
        · rw [if_pos hprog] at hmem
          rw [hceq] at hmem
          have hside' : ∀ hh, hi.map (· - 1) = some hh → lo - 1 ≤ hh := by
            intro hh hmap
            cases hi with
            | none => simp at hmap
            | some k =>
              simp at hmap
              subst hmap
              exact Nat.sub_le_sub_right (hside k rfl) 1
          obtain ⟨hc', hlen2⟩ := ih (lo - 1) (hi.map (· - 1)) rc.1 r c' hside' hmem
          refine ⟨hc', ?_⟩
          rcases Nat.eq_zero_or_pos lo with h0 | hpos
          · subst h0
            simp only [Nat.zero_mul, Nat.add_zero]
            have hr : r.length ≤ rc.1.length := by simpa using hlen2
            omega
          · have hmul : lo * δ = (lo - 1) * δ + δ := by
              cases lo with
              | zero => exact absurd hpos (by simp)
              | succ k => simp [Nat.succ_sub_one, Nat.succ_mul]
            rw [hmul, ← Nat.add_assoc]
            exact Nat.le_trans (Nat.add_le_add_right hlen2 δ) hlen1
        · rw [if_neg hprog] at hmem
          simp at hmem
      · by_cases hlo : lo = 0
        · rw [if_pos hlo] at h
          simp at h
          obtain ⟨h1, h2⟩ := h
          subst h1; subst h2
          simp [hlo]
        · rw [if_neg hlo] at h
          simp at h

-- ### Engine lemmas: rests are never longer than inputs

theorem atomMatch_rest_le (a : Atom) (s : List Char) (c : Caps)
    (r : List Char) (c' : Caps) (h : (r, c') ∈ atomMatch a s c) :
    r.length ≤ s.length := by
  cases a with
  | cls p =>
    obtain ⟨h1, h2⟩ := atomMatch_cls_spec p s c r c' h
    omega
  | lit ch =>
    obtain ⟨h1, h2⟩ := atomMatch_lit_spec ch s c r c' h
    omega
  | bref i =>
    obtain ⟨h1, h2⟩ := atomMatch_bref_spec i s c r c' h
    omega

theorem atomRep_rest_le (a : Atom) :
    ∀ fuel lo hi (s : List Char) (c : Caps) (r : List Char) (c' : Caps),
      (r, c') ∈ atomRep a fuel lo hi s c → r.length ≤ s.length := by
  intro fuel
  induction fuel with
  | zero =>
    intro lo hi s c r c' h
    simp only [atomRep] at h
    by_cases hlo : lo = 0
    · rw [if_pos hlo] at h
      simp at h
      obtain ⟨h1, h2⟩ := h
      subst h1
      exact Nat.le_refl _
    · rw [if_neg hlo] at h
      simp at h
  | succ n ih =>
    intro lo hi s c r c' h
    simp only [atomRep] at h
    by_cases hhi : hi = some 0
    · rw [if_pos hhi] at h
      simp at h
      obtain ⟨h1, h2⟩ := h
      subst h1
      exact Nat.le_refl _
    · rw [if_neg hhi] at h
      rw [List.mem_append] at h
      rcases h with h | h
      · rw [List.mem_flatMap] at h
        obtain ⟨rc, hrc, hmem⟩ := h
        by_cases hprog : rc.1.length < s.length
        · rw [if_pos hprog] at hmem
          exact Nat.le_trans (ih _ _ rc.1 rc.2 r c' hmem) (Nat.le_of_lt hprog)
        · rw [if_neg hprog] at hmem
          simp at hmem
      · by_cases hlo : lo = 0
        · rw [if_pos hlo] at h
          simp at h
          obtain ⟨h1, h2⟩ := h
          subst h1
          exact Nat.le_refl _
        · rw [if_neg hlo] at h
          simp at h

theorem mtch_rest_le (re : RE) :
    ∀ (s : List Char) (c : Caps) (r : List Char) (c' : Caps),
      (r, c') ∈ mtch re s c → r.length ≤ s.length := by
  induction re with
  | atom a =>
    intro s c r c' h
    exact atomMatch_rest_le a s c r c' h
  | seq a b iha ihb =>
    intro s c r c' h
    simp only [mtch] at h
    rw [List.mem_flatMap] at h
    obtain ⟨mid, hmid, hb⟩ := h
    exact Nat.le_trans (ihb mid.1 mid.2 r c' hb) (iha s c mid.1 mid.2 (by simpa using hmid))
  | alt a b iha ihb =>
    intro s c r c' h
    simp only [mtch] at h
    rw [List.mem_append] at h
    rcases h with h | h
    · exact iha s c r c' h
    · exact ihb s c r c' h
  | grp i re ih =>
    intro s c r c' h
    simp only [mtch] at h
    rw [List.mem_map] at h
    obtain ⟨mid, hmid, heq⟩ := h
    have hr : r = mid.1 := (congrArg Prod.fst heq).symm
    rw [hr]
    exact ih s c mid.1 mid.2 (by simpa using hmid)
  | rep lo hi a =>
    intro s c r c' h
    simp only [mtch] at h
    exact atomRep_rest_le a _ lo hi s c r c' h
  | eos =>
    intro s c r c' h
    simp only [mtch] at h
    by_cases hs : s.isEmpty
    · rw [if_pos hs] at h
      simp at h
      obtain ⟨h1, h2⟩ := h
      subst h1
      exact Nat.le_refl _
    · rw [if_neg hs] at h
      simp at h

-- ### Membership inversion and capture lemmas

theorem mem_mtch_seq {a b : RE} {s : List Char} {c : Caps}
    {rc : List Char × Caps} :
    rc ∈ mtch (.seq a b) s c ↔ ∃ mid ∈ mtch a s c, rc ∈ mtch b mid.1 mid.2 := by
  simp only [mtch]
  rw [List.mem_flatMap]

theorem mem_mtch_grp {i : Nat} {re : RE} {s : List Char} {c : Caps}
    {rc : List Char × Caps} :
    rc ∈ mtch (.grp i re) s c ↔
      ∃ mid ∈ mtch re s c,
        rc = (mid.1, setCap mid.2 i (s.take (s.length - mid.1.length))) := by
  simp only [mtch]
  rw [List.mem_map]
  constructor
  · rintro ⟨mid, hmid, heq⟩
    exact ⟨mid, hmid, heq.symm⟩
  · rintro ⟨mid, hmid, heq⟩
    exact ⟨mid, hmid, heq.symm⟩

theorem mem_mtch_alt {a b : RE} {s : List Char} {c : Caps}
    {rc : List Char × Caps} :
    rc ∈ mtch (.alt a b) s c ↔ rc ∈ mtch a s c ∨ rc ∈ mtch b s c := by
  simp only [mtch]
  rw [List.mem_append]

theorem mem_mtch_eos {s : List Char} {c : Caps} {rc : List Char × Caps} :
    rc ∈ mtch .eos s c ↔ s = [] ∧ rc = ([], c) := by
  by_cases hs : s = []
  · subst hs
    simp [mtch]
  · simp [mtch, hs, List.isEmpty_iff]

theorem getCap_set1 (c : Caps) (v : List Char) :
    getCap (setCap c 1 v) 1 = some v := rfl

theorem getCap_set2 (c : Caps) (v : List Char) :
    getCap (setCap c 2 v) 2 = some v := rfl

theorem getCap1_set2 (c : Caps) (v : List Char) :
    getCap (setCap c 2 v) 1 = getCap c 1 := rfl

-- ### Replacement-level length bounds

theorem searchFrom_some (re : RE) :
    ∀ (s : List Char) (i len : Nat) (c : Caps),
      searchFrom re s = some (i, len, c) →
      ∃ r, (r, c) ∈ mtch re (s.drop i) noCaps ∧
        r.length + len = (s.drop i).length ∧ i + len ≤ s.length := by
  intro s
  induction s with
  | nil =>
    intro i len c h
    simp only [searchFrom] at h
    cases hh : (mtch re [] noCaps).head? with
    | some rc =>
      rw [hh] at h
      have hy : rc ∈ mtch re [] noCaps := by
        cases hl : mtch re [] noCaps with
        | nil => rw [hl] at hh; simp at hh
        | cons y ys =>
          rw [hl] at hh
          simp at hh
          rw [← hh]
          exact List.mem_cons_self y ys
      have hle := mtch_rest_le re [] noCaps rc.1 rc.2 (by simpa using hy)
      have hr0 : rc.1.length = 0 := by simpa using hle
      simp only [Option.some.injEq, Prod.mk.injEq] at h
      obtain ⟨h1, h2, h3⟩ := h
      subst h1
      subst h2
      subst h3
      refine ⟨rc.1, ?_, ?_, ?_⟩
      · simpa using hy
      · simp only [List.drop_nil, List.length_nil]
        omega
      · simp only [List.length_nil]
        omega
    | none =>
      rw [hh] at h
      simp at h
  | cons x xs ih =>
    intro i len c h
    simp only [searchFrom] at h
    cases hh : (mtch re (x :: xs) noCaps).head? with
    | some rc =>
      rw [hh] at h
      have hy : rc ∈ mtch re (x :: xs) noCaps := by
        cases hl : mtch re (x :: xs) noCaps with
        | nil => rw [hl] at hh; simp at hh
        | cons y ys =>
          rw [hl] at hh
          simp at hh
          rw [← hh]
          exact List.mem_cons_self y ys
      have hle := mtch_rest_le re (x :: xs) noCaps rc.1 rc.2 (by simpa using hy)
      simp only [Option.some.injEq, Prod.mk.injEq] at h
      obtain ⟨h1, h2, h3⟩ := h
      subst h1
      subst h2
      subst h3
      refine ⟨rc.1, ?_, ?_, ?_⟩
      · simpa using hy
      · simp only [List.drop_zero]
        omega
      · omega
    | none =>
      rw [hh] at h
      cases hsf : searchFrom re xs with
      | none => rw [hsf] at h; simp at h
      | some t =>
        rw [hsf] at h
        obtain ⟨t1, t2, t3⟩ := t
        simp at h
        obtain ⟨hi, hlen2, hc⟩ := h
        obtain ⟨r, hmem, hlen, hile⟩ := ih t1 t2 t3 hsf
        subst hi
        subst hlen2
        subst hc
        refine ⟨r, ?_, ?_, ?_⟩
        · simpa using hmem
        · simpa using hlen
        · simp
          omega

theorem replaceAllAux_le (re : RE) (t : List TmplPart) (hs : ShrinkRule re t) :
    ∀ fuel (s : List Char), (replaceAllAux re t fuel s).length ≤ s.length := by
  intro fuel
  induction fuel with
  | zero =>
    intro s
    exact Nat.le_refl _
  | succ n ih =>
    intro s
    cases hsf : searchFrom re s with
    | none =>
      rw [replaceAllAux_no_match re t s hsf]
    | some m =>
      obtain ⟨i, len, c⟩ := m
      obtain ⟨r, hmem, hlen, hile⟩ := searchFrom_some re s i len c hsf
      have hshr := hs (s.drop i) r c hmem
      have hdrop : (s.drop i).length = s.length - i := List.length_drop i s
      have hlen0 : len ≠ 0 := by omega
      simp only [replaceAllAux, hsf]
      rw [if_neg hlen0]
      have h1 : (s.take i).length = i := by
        rw [List.length_take]
        omega
      have h2 := ih (s.drop (i + len))
      have h3 : (s.drop (i + len)).length = s.length - (i + len) :=
        List.length_drop (i + len) s
      simp only [List.length_append, h1]
      omega

theorem replaceAllAux_lt (re : RE) (t : List TmplPart) (hs : ShrinkRule re t)
    (fuel : Nat) (s : List Char) (m : Nat × Nat × Caps)
    (hsf : searchFrom re s = some m) :
    (replaceAllAux re t (fuel + 1) s).length < s.length := by
  obtain ⟨i, len, c⟩ := m
  obtain ⟨r, hmem, hlen, hile⟩ := searchFrom_some re s i len c hsf
  have hshr := hs (s.drop i) r c hmem
  have hdrop : (s.drop i).length = s.length - i := List.length_drop i s
  have hlen0 : len ≠ 0 := by omega
  simp only [replaceAllAux, hsf]
  rw [if_neg hlen0]
  have h1 : (s.take i).length = i := by
    rw [List.length_take]
    omega
  have h2 := replaceAllAux_le re t hs fuel (s.drop (i + len))
  have h3 : (s.drop (i + len)).length = s.length - (i + len) :=
    List.length_drop (i + len) s
  simp only [List.length_append, h1]
  omega

theorem applyStep_shrink (s : List Char) (st : Step)
    (hs : ShrinkRule st.re st.tmpl) :
    applyStep s st = s ∨ (applyStep s st).length < s.length := by
  rcases st with ⟨re, t, k⟩
  have hs' : ShrinkRule re t := hs
  cases k
  case all =>
    cases hsf : searchFrom re s with
    | none =>
      left
      exact replaceAllAux_no_match re t s hsf _
    | some m =>
      right
      exact replaceAllAux_lt re t hs' s.length s m hsf
  case first =>
    cases hsf : searchFrom re s with
    | none =>
      left
      show replaceFirst re t s = s
      unfold replaceFirst
      rw [hsf]
    | some m =>
      right
      show (replaceFirst re t s).length < s.length
      obtain ⟨i, len, c⟩ := m
      obtain ⟨r, hmem, hlen, hile⟩ := searchFrom_some re s i len c hsf
      have hshr := hs' (s.drop i) r c hmem
      have hdrop : (s.drop i).length = s.length - i := List.length_drop i s
      unfold replaceFirst
      rw [hsf]
      have h1 : (s.take i).length = i := by
        rw [List.length_take]
        omega
      have h3 : (s.drop (i + len)).length = s.length - (i + len) :=
        List.length_drop (i + len) s
      simp only [List.length_append, h1]
      omega
  case atStart =>
    cases hh : (mtch re s noCaps).head? with
    | none =>
      left
      show replaceStart re t s = s
      unfold replaceStart
      rw [hh]
    | some rc =>
      right
      show (replaceStart re t s).length < s.length
      unfold replaceStart
      rw [hh]
      cases hl : mtch re s noCaps with
      | nil => rw [hl] at hh; simp at hh
      | cons y ys =>
        rw [hl] at hh
        simp at hh
        have hy : rc ∈ mtch re s noCaps := by
          rw [hl, ← hh]
          exact List.mem_cons_self y ys
        have hshr := hs' s rc.1 rc.2 (by simpa using hy)
        simp only [List.length_append]
        omega

theorem foldl_applyStep_le (steps : List Step)
    (hs : ∀ st ∈ steps, ShrinkRule st.re st.tmpl) :
    ∀ s : List Char, (steps.foldl applyStep s).length ≤ s.length := by
  induction steps with
  | nil =>
    intro s
    exact Nat.le_refl _
  | cons st rest ih =>
    intro s
    rw [List.foldl_cons]
    rcases applyStep_shrink s st (hs st (by simp)) with h | h
    · rw [h]
      exact ih (fun st' hst' => hs st' (by simp [hst'])) s
    · exact Nat.le_trans
        (ih (fun st' hst' => hs st' (by simp [hst'])) (applyStep s st))
        (Nat.le_of_lt h)

theorem foldl_applyStep_shrink (steps : List Step)
    (hs : ∀ st ∈ steps, ShrinkRule st.re st.tmpl) :
    ∀ s : List Char,
      steps.foldl applyStep s = s ∨ (steps.foldl applyStep s).length < s.length := by
  induction steps with
  | nil =>
    intro s
    left
    rfl
  | cons st rest ih =>
    intro s
    rw [List.foldl_cons]
    rcases applyStep_shrink s st (hs st (by simp)) with h | h
    · rw [h]
      exact ih (fun st' hst' => hs st' (by simp [hst'])) s
    · right
      exact Nat.lt_of_le_of_lt
        (foldl_applyStep_le rest (fun st' hst' => hs st' (by simp [hst'])) (applyStep s st)) h

-- ### Wrappers for quantified atoms and template instantiation

theorem repCls_spec (p : Char → Bool) (cm : Caps) (lo : Nat) (hi : Option Nat)
    (hside : ∀ hh, hi = some hh → lo ≤ hh) (s r : List Char) (c' : Caps)
    (h : (r, c') ∈ mtch (.rep lo hi (.cls p)) s cm) :
    c' = cm ∧ r.length + lo ≤ s.length := by
  have hmain := atomRep_lower (.cls p) cm 1
    (fun s' r' c'' h' => by
      obtain ⟨h1, h2⟩ := atomMatch_cls_spec p s' cm r' c'' h'
      exact ⟨h1, by omega⟩)
    (s.length + 1) lo hi s r c' hside (by simpa [mtch] using h)
  simpa using hmain

theorem repLit_spec (ch : Char) (cm : Caps) (lo : Nat) (hi : Option Nat)
    (hside : ∀ hh, hi = some hh → lo ≤ hh) (s r : List Char) (c' : Caps)
    (h : (r, c') ∈ mtch (.rep lo hi (.lit ch)) s cm) :
    c' = cm ∧ r.length + lo ≤ s.length := by
  have hmain := atomRep_lower (.lit ch) cm 1
    (fun s' r' c'' h' => by
      obtain ⟨h1, h2⟩ := atomMatch_lit_spec ch s' cm r' c'' h'
      exact ⟨h1, by omega⟩)
    (s.length + 1) lo hi s r c' hside (by simpa [mtch] using h)
  simpa using hmain

theorem repBref_spec (i : Nat) (cm : Caps) (g : List Char)
    (hg : getCap cm i = some g) (lo : Nat) (hi : Option Nat)
    (hside : ∀ hh, hi = some hh → lo ≤ hh) (s r : List Char) (c' : Caps)
    (h : (r, c') ∈ mtch (.rep lo hi (.bref i)) s cm) :
    c' = cm ∧ r.length + lo * g.length ≤ s.length := by
  exact atomRep_lower (.bref i) cm g.length
    (fun s' r' c'' h' => by
      obtain ⟨h1, h2⟩ := atomMatch_bref_spec i s' cm r' c'' h'
      rw [hg] at h2
      simp at h2
      exact ⟨h1, by omega⟩)
    (s.length + 1) lo hi s r c' hside (by simpa [mtch] using h)

theorem atomCls_spec (p : Char → Bool) (cm : Caps) (s r : List Char) (c' : Caps)
    (h : (r, c') ∈ mtch (.atom (.cls p)) s cm) :
    c' = cm ∧ r.length + 1 = s.length :=
  atomMatch_cls_spec p s cm r c' (by simpa [mtch] using h)

theorem atomBref_spec (i : Nat) (cm : Caps) (g : List Char)
    (hg : getCap cm i = some g) (s r : List Char) (c' : Caps)
    (h : (r, c') ∈ mtch (.atom (.bref i)) s cm) :
    c' = cm ∧ r.length + g.length = s.length := by
  obtain ⟨h1, h2⟩ := atomMatch_bref_spec i s cm r c' (by simpa [mtch] using h)
  rw [hg] at h2
  simp at h2
  exact ⟨h1, h2⟩

theorem instTmpl_grp1 (c : Caps) : instTmpl [.grp 1] c = (getCap c 1).getD [] := by
  simp [instTmpl]

theorem instTmpl_grp2 (c : Caps) : instTmpl [.grp 2] c = (getCap c 2).getD [] := by
  simp [instTmpl]

theorem instTmpl_grp12 (c : Caps) :
    instTmpl [.grp 1, .grp 2] c = (getCap c 1).getD [] ++ (getCap c 2).getD [] := by
  simp [instTmpl]

theorem instTmpl_grp1_lit (cs : List Char) (c : Caps) :
    instTmpl [.grp 1, .lit cs] c = (getCap c 1).getD [] ++ cs := by
  simp [instTmpl]

theorem instTmpl_lit (cs : List Char) (c : Caps) : instTmpl [.lit cs] c = cs := by
  simp [instTmpl]

theorem instTmpl_nil (c : Caps) : instTmpl [] c = [] := rfl

-- ### The first rule is shrinking

theorem shrink_step1 : ShrinkRule step1.re step1.tmpl := by
  intro s r c' h
  simp only [step1, reRule1] at h ⊢
  rw [mem_mtch_seq] at h
  obtain ⟨mid, hmid, hrest⟩ := h
  rw [mem_mtch_grp] at hmid
  obtain ⟨g0, hg0, heq⟩ := hmid
  obtain ⟨hg0c, hg0len⟩ :=
    repCls_spec dotCls noCaps 2 (some 8) (by intro hh hhh; simp at hhh; omega)
      s g0.1 g0.2 (by simpa using hg0)
  have hg0le : g0.1.length ≤ s.length := by omega
  have hglen : (s.take (s.length - g0.1.length)).length = s.length - g0.1.length := by
    rw [List.length_take]
    omega
  rw [heq] at hrest
  rw [hg0c] at hrest
  have hcap : getCap (setCap noCaps 1 (s.take (s.length - g0.1.length))) 1
      = some (s.take (s.length - g0.1.length)) := getCap_set1 _ _
  obtain ⟨hc', hrlen⟩ :=
    repBref_spec 1 (setCap noCaps 1 (s.take (s.length - g0.1.length)))
      (s.take (s.length - g0.1.length)) hcap 1 none (by intro hh hhh; simp at hhh)
      g0.1 r c' hrest
  rw [hc', instTmpl_grp1, hcap]
  simp only [Option.getD_some]
  omega

theorem shrink_step2 : ShrinkRule step2.re step2.tmpl := by
  intro s r c' h
  simp only [step2] at h ⊢
  rw [mem_mtch_seq] at h
  obtain ⟨mid, hmid, hrest⟩ := h
  rw [mem_mtch_grp] at hmid
  obtain ⟨g0, hg0, heq⟩ := hmid
  obtain ⟨hg0c, hg0len⟩ :=
    repCls_spec dotCls noCaps 2 (some 10) (by intro hh hhh; simp at hhh; omega)
      s g0.1 g0.2 (by simpa using hg0)
  have hg0le : g0.1.length ≤ s.length := by omega
  have hglen : (s.take (s.length - g0.1.length)).length = s.length - g0.1.length := by
    rw [List.length_take]
    omega
  rw [heq, hg0c] at hrest
  have hcap : getCap (setCap noCaps 1 (s.take (s.length - g0.1.length))) 1
      = some (s.take (s.length - g0.1.length)) := getCap_set1 _ _
  rw [mem_mtch_seq] at hrest
  obtain ⟨m2, hm2, hrest2⟩ := hrest
  obtain ⟨hm2c, hm2len⟩ :=
    repCls_spec punctFull (setCap noCaps 1 (s.take (s.length - g0.1.length))) 1 none
      (by intro hh hhh; simp at hhh) g0.1 m2.1 m2.2 (by simpa using hm2)
  rw [hm2c] at hrest2
  obtain ⟨hc', hrlen⟩ := atomBref_spec 1 _ _ hcap m2.1 r c' hrest2
  rw [hc', instTmpl_grp1, hcap]
  simp only [Option.getD_some]
  omega

theorem shrink_step3 : ShrinkRule step3.re step3.tmpl := by
  intro s r c' h
  simp only [step3] at h ⊢
  rw [mem_mtch_seq] at h
  obtain ⟨mid, hmid, hrest⟩ := h
  rw [mem_mtch_grp] at hmid
  obtain ⟨g0, hg0, heq⟩ := hmid
  obtain ⟨hg0c, hg0len⟩ := atomCls_spec isHira noCaps s g0.1 g0.2 (by simpa using hg0)
  have hg0le : g0.1.length ≤ s.length := by omega
  have hglen : (s.take (s.length - g0.1.length)).length = s.length - g0.1.length := by
    rw [List.length_take]
    omega
  rw [heq, hg0c] at hrest
  have hcap : getCap (setCap noCaps 1 (s.take (s.length - g0.1.length))) 1
      = some (s.take (s.length - g0.1.length)) := getCap_set1 _ _
  obtain ⟨hc', hrlen⟩ :=
    repBref_spec 1 (setCap noCaps 1 (s.take (s.length - g0.1.length)))
      (s.take (s.length - g0.1.length)) hcap 2 none (by intro hh hhh; simp at hhh)
      g0.1 r c' hrest
  rw [hc', instTmpl_grp1, hcap]
  simp only [Option.getD_some]
  omega

theorem shrink_step4 : ShrinkRule step4.re step4.tmpl := by
  intro s r c' h
  simp only [step4] at h ⊢
  rw [mem_mtch_seq] at h
  obtain ⟨mid, hmid, hrest⟩ := h
  rw [mem_mtch_grp] at hmid
  obtain ⟨g0, hg0, heq⟩ := hmid
  obtain ⟨hg0c, hg0len⟩ := atomCls_spec isKata noCaps s g0.1 g0.2 (by simpa using hg0)
  have hg0le : g0.1.length ≤ s.length := by omega
  have hglen : (s.take (s.length - g0.1.length)).length = s.length - g0.1.length := by
    rw [List.length_take]
    omega
  rw [heq, hg0c] at hrest
  have hcap : getCap (setCap noCaps 1 (s.take (s.length - g0.1.length))) 1
      = some (s.take (s.length - g0.1.length)) := getCap_set1 _ _
  obtain ⟨hc', hrlen⟩ :=
    repBref_spec 1 (setCap noCaps 1 (s.take (s.length - g0.1.length)))
      (s.take (s.length - g0.1.length)) hcap 2 none (by intro hh hhh; simp at hhh)
      g0.1 r c' hrest
  rw [hc', instTmpl_grp1, hcap]
  simp only [Option.getD_some]
  omega

theorem shrink_step5 : ShrinkRule step5.re step5.tmpl := by
  intro s r c' h
  simp only [step5] at h ⊢
  rw [mem_mtch_seq] at h
  obtain ⟨mid, hmid, hrest⟩ := h
  rw [mem_mtch_grp] at hmid
  obtain ⟨g0, hg0, heq⟩ := hmid
  obtain ⟨hg0c, hg0len⟩ := atomCls_spec isHira noCaps s g0.1 g0.2 (by simpa using hg0)
  have hg0le : g0.1.length ≤ s.length := by omega
  have hglen : (s.take (s.length - g0.1.length)).length = s.length - g0.1.length := by
    rw [List.length_take]
    omega
  rw [heq, hg0c] at hrest
  have hcap : getCap (setCap noCaps 1 (s.take (s.length - g0.1.length))) 1
      = some (s.take (s.length - g0.1.length)) := getCap_set1 _ _
  rw [mem_mtch_seq] at hrest
  obtain ⟨m2, hm2, hrest2⟩ := hrest
  obtain ⟨hm2c, hm2len⟩ := atomBref_spec 1 _ _ hcap g0.1 m2.1 m2.2 (by simpa using hm2)
  rw [hm2c] at hrest2
  rw [mem_mtch_grp] at hrest2
  obtain ⟨g3, hg3, heq3⟩ := hrest2
  obtain ⟨hg3c, hg3len⟩ :=
    atomCls_spec isHira (setCap noCaps 1 (s.take (s.length - g0.1.length)))
      m2.1 g3.1 g3.2 (by simpa using hg3)
  have hg3le : g3.1.length ≤ m2.1.length := by omega
  have hg2len : (m2.1.take (m2.1.length - g3.1.length)).length
      = m2.1.length - g3.1.length := by
    rw [List.length_take]
    omega
  have hr : r = g3.1 := congrArg Prod.fst heq3
  have hcc : c' = setCap g3.2 2 (m2.1.take (m2.1.length - g3.1.length)) :=
    congrArg Prod.snd heq3
  rw [hr, hcc, hg3c]
  rw [instTmpl_grp12]
  rw [getCap1_set2, getCap_set2, hcap]
  simp only [Option.getD_some, List.length_append]
  omega

theorem shrink_step6 : ShrinkRule step6.re step6.tmpl := by
  intro s r c' h
  simp only [step6] at h ⊢
  rw [mem_mtch_seq] at h
  obtain ⟨mid, hmid, hrest⟩ := h
  rw [mem_mtch_grp] at hmid
  obtain ⟨g0, hg0, heq⟩ := hmid
  obtain ⟨hg0c, hg0len⟩ := atomCls_spec isKata noCaps s g0.1 g0.2 (by simpa using hg0)
  have hg0le : g0.1.length ≤ s.length := by omega
  have hglen : (s.take (s.length - g0.1.length)).length = s.length - g0.1.length := by
    rw [List.length_take]
    omega
  rw [heq, hg0c] at hrest
  have hcap : getCap (setCap noCaps 1 (s.take (s.length - g0.1.length))) 1
      = some (s.take (s.length - g0.1.length)) := getCap_set1 _ _
  rw [mem_mtch_seq] at hrest
  obtain ⟨m2, hm2, hrest2⟩ := hrest
  obtain ⟨hm2c, hm2len⟩ := atomBref_spec 1 _ _ hcap g0.1 m2.1 m2.2 (by simpa using hm2)
  rw [hm2c] at hrest2
  rw [mem_mtch_grp] at hrest2
  obtain ⟨g3, hg3, heq3⟩ := hrest2
  obtain ⟨hg3c, hg3len⟩ :=
    atomCls_spec isKata (setCap noCaps 1 (s.take (s.length - g0.1.length)))
      m2.1 g3.1 g3.2 (by simpa using hg3)
  have hg3le : g3.1.length ≤ m2.1.length := by omega
  have hg2len : (m2.1.take (m2.1.length - g3.1.length)).length
      = m2.1.length - g3.1.length := by
    rw [List.length_take]
    omega
  have hr : r = g3.1 := congrArg Prod.fst heq3
  have hcc : c' = setCap g3.2 2 (m2.1.take (m2.1.length - g3.1.length)) :=
    congrArg Prod.snd heq3
  rw [hr, hcc, hg3c]
  rw [instTmpl_grp12]
  rw [getCap1_set2, getCap_set2, hcap]
  simp only [Option.getD_some, List.length_append]
  omega

theorem shrink_step7 : ShrinkRule step7.re step7.tmpl := by
  intro s r c' h
  simp only [step7] at h ⊢
  rw [mem_mtch_seq] at h
  obtain ⟨mid, hmid, hrest⟩ := h
  rw [mem_mtch_grp] at hmid
  obtain ⟨g0, hg0, heq⟩ := hmid
  obtain ⟨hg0c, hg0len⟩ := atomCls_spec isHiraKata noCaps s g0.1 g0.2 (by simpa using hg0)
  have hg0le : g0.1.length ≤ s.length := by omega
  have hglen : (s.take (s.length - g0.1.length)).length = s.length - g0.1.length := by
    rw [List.length_take]
    omega
  rw [heq, hg0c] at hrest
  have hcap : getCap (setCap noCaps 1 (s.take (s.length - g0.1.length))) 1
      = some (s.take (s.length - g0.1.length)) := getCap_set1 _ _
  rw [mem_mtch_seq] at hrest
  obtain ⟨m2, hm2, hrest2⟩ := hrest
  obtain ⟨hm2c, hm2len⟩ :=
    repCls_spec punctComma (setCap noCaps 1 (s.take (s.length - g0.1.length))) 1 none
      (by intro hh hhh; simp at hhh) g0.1 m2.1 m2.2 (by simpa using hm2)
  rw [hm2c] at hrest2
  rw [mem_mtch_seq] at hrest2
  obtain ⟨m3, hm3, hrest3⟩ := hrest2
  obtain ⟨hm3c, hm3len⟩ := atomBref_spec 1 _ _ hcap m2.1 m3.1 m3.2 (by simpa using hm3)
  rw [hm3c] at hrest3
  rw [mem_mtch_seq] at hrest3
  obtain ⟨m4, hm4, hrest4⟩ := hrest3
  obtain ⟨hm4c, hm4len⟩ :=
    repCls_spec punctComma (setCap noCaps 1 (s.take (s.length - g0.1.length))) 0 none
      (by intro hh hhh; simp at hhh) m3.1 m4.1 m4.2 (by simpa using hm4)
  rw [hm4c] at hrest4
  obtain ⟨hc', hrlen⟩ :=
    repBref_spec 1 (setCap noCaps 1 (s.take (s.length - g0.1.length)))
      (s.take (s.length - g0.1.length)) hcap 0 none (by intro hh hhh; simp at hhh)
      m4.1 r c' hrest4
  rw [hc', instTmpl_grp1, hcap]
  simp only [Option.getD_some]
  omega

theorem shrink_step8 : ShrinkRule step8.re step8.tmpl := by
  intro s r c' h
  simp only [step8] at h ⊢
  rw [mem_mtch_seq] at h
  obtain ⟨mid, hmid, hrest⟩ := h
  rw [mem_mtch_grp] at hmid
  obtain ⟨g0, hg0, heq⟩ := hmid
  obtain ⟨hg0c, hg0len⟩ :=
    repCls_spec isHiraKata noCaps 1 (some 3) (by intro hh hhh; simp at hhh; omega)
      s g0.1 g0.2 (by simpa using hg0)
  have hg0le : g0.1.length ≤ s.length := by omega
  have hglen : (s.take (s.length - g0.1.length)).length = s.length - g0.1.length := by
    rw [List.length_take]
    omega
  rw [heq, hg0c] at hrest
  have hcap : getCap (setCap noCaps 1 (s.take (s.length - g0.1.length))) 1
      = some (s.take (s.length - g0.1.length)) := getCap_set1 _ _
  rw [mem_mtch_seq] at hrest
  obtain ⟨m2, hm2, hrest2⟩ := hrest
  obtain ⟨hm2c, hm2len⟩ :=
    repCls_spec punctComma (setCap noCaps 1 (s.take (s.length - g0.1.length))) 1 none
      (by intro hh hhh; simp at hhh) g0.1 m2.1 m2.2 (by simpa using hm2)
  rw [hm2c] at hrest2
  rw [mem_mtch_seq] at hrest2
  obtain ⟨m3, hm3, hrest3⟩ := hrest2
  obtain ⟨hm3c, hm3len⟩ := atomBref_spec 1 _ _ hcap m2.1 m3.1 m3.2 (by simpa using hm3)
  rw [hm3c] at hrest3
  obtain ⟨hc', hrlen⟩ :=
    repCls_spec punctComma (setCap noCaps 1 (s.take (s.length - g0.1.length))) 0 none
      (by intro hh hhh; simp at hhh) m3.1 r c' hrest3
  rw [hc', instTmpl_grp1, hcap]
  simp only [Option.getD_some]
  omega

theorem shrink_step9 : ShrinkRule step9.re step9.tmpl := by
  intro s r c' h
  simp only [step9] at h ⊢
  rw [mem_mtch_seq] at h
  obtain ⟨mid, hmid, hrest⟩ := h
  rw [mem_mtch_grp] at hmid
  obtain ⟨g0, hg0, heq⟩ := hmid
  obtain ⟨hg0c, hg0len⟩ := atomCls_spec isHira noCaps s g0.1 g0.2 (by simpa using hg0)
  have hg0le : g0.1.length ≤ s.length := by omega
  have hglen : (s.take (s.length - g0.1.length)).length = s.length - g0.1.length := by
    rw [List.length_take]
    omega
  rw [heq, hg0c] at hrest
  have hcap : getCap (setCap noCaps 1 (s.take (s.length - g0.1.length))) 1
      = some (s.take (s.length - g0.1.length)) := getCap_set1 _ _
  rw [mem_mtch_seq] at hrest
  obtain ⟨m2, hm2, hrest2⟩ := hrest
  obtain ⟨hm2c, hm2len⟩ :=
    repCls_spec commaOnly (setCap noCaps 1 (s.take (s.length - g0.1.length))) 1 none
      (by intro hh hhh; simp at hhh) g0.1 m2.1 m2.2 (by simpa using hm2)
  rw [hm2c] at hrest2
  rw [mem_mtch_seq] at hrest2
  obtain ⟨m3, hm3, hrest3⟩ := hrest2
  obtain ⟨hm3c, hm3len⟩ :=
    repBref_spec 1 (setCap noCaps 1 (s.take (s.length - g0.1.length)))
      (s.take (s.length - g0.1.length)) hcap 0 none (by intro hh hhh; simp at hhh)
      m2.1 m3.1 m3.2 (by simpa using hm3)
  rw [hm3c] at hrest3
  rw [mem_mtch_grp] at hrest3
  obtain ⟨g4, hg4, heq4⟩ := hrest3
  obtain ⟨hg4c, hg4len⟩ :=
    atomCls_spec isKanji (setCap noCaps 1 (s.take (s.length - g0.1.length)))
      m3.1 g4.1 g4.2 (by simpa using hg4)
  have hg4le : g4.1.length ≤ m3.1.length := by omega
  have hg2len : (m3.1.take (m3.1.length - g4.1.length)).length
      = m3.1.length - g4.1.length := by
    rw [List.length_take]
    omega
  have hr : r = g4.1 := congrArg Prod.fst heq4
  have hcc : c' = setCap g4.2 2 (m3.1.take (m3.1.length - g4.1.length)) :=
    congrArg Prod.snd heq4
  rw [hr, hcc, hg4c]
  rw [instTmpl_grp2, getCap_set2]
  simp only [Option.getD_some]
  omega

theorem shrink_step10 : ShrinkRule step10.re step10.tmpl := by
  intro s r c' h
  simp only [step10] at h ⊢
  obtain ⟨hc', hlen⟩ :=
    repLit_spec 'ー' noCaps 2 none (by intro hh hhh; simp at hhh) s r c' h
  rw [hc', instTmpl_lit]
  simp only [List.length_cons, List.length_nil]
  omega

theorem shrink_step11 : ShrinkRule step11.re step11.tmpl := by
  intro s r c' h
  simp only [step11] at h ⊢
  obtain ⟨hc', hlen⟩ :=
    repLit_spec 'っ' noCaps 2 none (by intro hh hhh; simp at hhh) s r c' h
  rw [hc', instTmpl_lit]
  simp only [List.length_cons, List.length_nil]
  omega

theorem shrink_step12 : ShrinkRule step12.re step12.tmpl := by
  intro s r c' h
  simp only [step12] at h ⊢
  obtain ⟨hc', hlen⟩ :=
    repLit_spec '…' noCaps 2 none (by intro hh hhh; simp at hhh) s r c' h
  rw [hc', instTmpl_lit]
  simp only [List.length_cons, List.length_nil]
  omega

theorem shrink_step17 : ShrinkRule step17.re step17.tmpl := by
  intro s r c' h
  simp only [step17] at h ⊢
  obtain ⟨hc', hlen⟩ :=
    repLit_spec '、' noCaps 2 none (by intro hh hhh; simp at hhh) s r c' h
  rw [hc', instTmpl_lit]
  simp only [List.length_cons, List.length_nil]
  omega

theorem shrink_step18 : ShrinkRule step18.re step18.tmpl := by
  intro s r c' h
  simp only [step18] at h ⊢
  obtain ⟨hc', hlen⟩ :=
    repCls_spec jsWs noCaps 2 none (by intro hh hhh; simp at hhh) s r c' h
  rw [hc', instTmpl_lit]
  simp only [List.length_cons, List.length_nil]
  omega

theorem shrink_step15 : ShrinkRule step15.re step15.tmpl := by
  intro s r c' h
  simp only [step15] at h ⊢
  obtain ⟨hc', hlen⟩ :=
    repCls_spec punctComma noCaps 1 none (by intro hh hhh; simp at hhh) s r c' h
  rw [hc', instTmpl_nil]
  simp only [List.length_nil]
  omega

theorem shrink_step16 : ShrinkRule step16.re step16.tmpl := by
  intro s r c' h
  simp only [step16] at h ⊢
  rw [mem_mtch_seq] at h
  obtain ⟨mid, hmid, hrest⟩ := h
  obtain ⟨hmc, hmlen⟩ :=
    repCls_spec punctComma noCaps 1 none (by intro hh hhh; simp at hhh)
      s mid.1 mid.2 (by simpa using hmid)
  rw [mem_mtch_eos] at hrest
  obtain ⟨hnil, heq⟩ := hrest
  have hr : r = [] := congrArg Prod.fst heq
  have hcc : c' = mid.2 := congrArg Prod.snd heq
  rw [hr, hcc, hmc, instTmpl_nil]
  simp only [List.length_nil]
  omega

-- ### Filler alternation consumption bounds

theorem mtch_lit2_spec (c1 c2 : Char) (s : List Char) (cm : Caps)
    (r : List Char) (c' : Caps)
    (h : (r, c') ∈ mtch (.seq (.atom (.lit c1)) (.atom (.lit c2))) s cm) :
    c' = cm ∧ r.length + 2 = s.length := by
  rw [mem_mtch_seq] at h
  obtain ⟨mid, hmid, hr⟩ := h
  obtain ⟨hc1, hl1⟩ := atomMatch_lit_spec c1 s cm mid.1 mid.2 (by simpa [mtch] using hmid)
  rw [hc1] at hr
  obtain ⟨hc2, hl2⟩ := atomMatch_lit_spec c2 mid.1 cm r c' (by simpa [mtch] using hr)
  exact ⟨hc2, by omega⟩

theorem mtch_lit3_spec (c1 c2 c3 : Char) (s : List Char) (cm : Caps)
    (r : List Char) (c' : Caps)
    (h : (r, c') ∈ mtch
      (.seq (.atom (.lit c1)) (.seq (.atom (.lit c2)) (.atom (.lit c3)))) s cm) :
    c' = cm ∧ r.length + 3 = s.length := by
  rw [mem_mtch_seq] at h
  obtain ⟨mid, hmid, hr⟩ := h
  obtain ⟨hc1, hl1⟩ := atomMatch_lit_spec c1 s cm mid.1 mid.2 (by simpa [mtch] using hmid)
  rw [hc1] at hr
  obtain ⟨hc2, hl2⟩ := mtch_lit2_spec c2 c3 mid.1 cm r c' hr
  exact ⟨hc2, by omega⟩

theorem mtch_lit2repCls_spec (c1 c2 : Char) (p : Char → Bool) (s : List Char)
    (cm : Caps) (r : List Char) (c' : Caps)
    (h : (r, c') ∈ mtch
      (.seq (.atom (.lit c1))
        (.seq (.atom (.lit c2)) (.rep 0 none (.cls p)))) s cm) :
    c' = cm ∧ r.length + 2 ≤ s.length := by
  rw [mem_mtch_seq] at h
  obtain ⟨mid, hmid, hr⟩ := h
  obtain ⟨hc1, hl1⟩ := atomMatch_lit_spec c1 s cm mid.1 mid.2 (by simpa [mtch] using hmid)
  rw [hc1] at hr
  rw [mem_mtch_seq] at hr
  obtain ⟨m2, hm2, hr2⟩ := hr
  obtain ⟨hc2, hl2⟩ := atomMatch_lit_spec c2 mid.1 cm m2.1 m2.2 (by simpa [mtch] using hm2)
  rw [hc2] at hr2
  obtain ⟨hc3, hl3⟩ :=
    repCls_spec p cm 0 none (by intro hh hhh; simp at hhh) m2.1 r c' hr2
  exact ⟨hc3, by omega⟩

theorem mtch_lit2repLit_spec (c1 c2 c3 : Char) (s : List Char)
    (cm : Caps) (r : List Char) (c' : Caps)
    (h : (r, c') ∈ mtch
      (.seq (.atom (.lit c1))
        (.seq (.atom (.lit c2)) (.rep 0 none (.lit c3)))) s cm) :
    c' = cm ∧ r.length + 2 ≤ s.length := by
  rw [mem_mtch_seq] at h
  obtain ⟨mid, hmid, hr⟩ := h
  obtain ⟨hc1, hl1⟩ := atomMatch_lit_spec c1 s cm mid.1 mid.2 (by simpa [mtch] using hmid)
  rw [hc1] at hr
  rw [mem_mtch_seq] at hr
  obtain ⟨m2, hm2, hr2⟩ := hr
  obtain ⟨hc2, hl2⟩ := atomMatch_lit_spec c2 mid.1 cm m2.1 m2.2 (by simpa [mtch] using hm2)
  rw [hc2] at hr2
  obtain ⟨hc3, hl3⟩ :=
    repLit_spec c3 cm 0 none (by intro hh hhh; simp at hhh) m2.1 r c' hr2
  exact ⟨hc3, by omega⟩

theorem mtch_fillerAlt_spec (s : List Char) (cm : Caps) (r : List Char) (c' : Caps)
    (h : (r, c') ∈ mtch fillerAlt s cm) : c' = cm ∧ r.length + 2 ≤ s.length := by
  simp only [fillerAlt] at h
  rw [mem_mtch_alt] at h
  rcases h with h | h
  · obtain ⟨hc, hl⟩ := mtch_lit2_spec 'え' 'ー' s cm r c' h
    exact ⟨hc, by omega⟩
  rw [mem_mtch_alt] at h
  rcases h with h | h
  · obtain ⟨hc, hl⟩ := mtch_lit2_spec 'あ' 'ー' s cm r c' h
    exact ⟨hc, by omega⟩
  rw [mem_mtch_alt] at h
  rcases h with h | h
  · obtain ⟨hc, hl⟩ := mtch_lit2_spec 'う' 'ー' s cm r c' h
    exact ⟨hc, by omega⟩
  rw [mem_mtch_alt] at h
  rcases h with h | h
  · obtain ⟨hc, hl⟩ := mtch_lit2_spec 'あ' 'の' s cm r c' h
    exact ⟨hc, by omega⟩
  rw [mem_mtch_alt] at h
  rcases h with h | h
  · obtain ⟨hc, hl⟩ := mtch_lit3_spec 'え' 'っ' 'と' s cm r c' h
    exact ⟨hc, by omega⟩
  rw [mem_mtch_alt] at h
  rcases h with h | h
  · obtain ⟨hc, hl⟩ := mtch_lit2_spec 'ま' 'あ' s cm r c' h
    exact ⟨hc, by omega⟩
  rw [mem_mtch_alt] at h
  rcases h with h | h
  · obtain ⟨hc, hl⟩ := mtch_lit2_spec 'そ' 'の' s cm r c' h
    exact ⟨hc, by omega⟩
  · obtain ⟨hc, hl⟩ := mtch_lit3_spec 'な' 'ん' 'か' s cm r c' h
    exact ⟨hc, by omega⟩

theorem mtch_leadFillerAlt_spec (s : List Char) (cm : Caps)
    (r : List Char) (c' : Caps)
    (h : (r, c') ∈ mtch leadFillerAlt s cm) : c' = cm ∧ r.length + 2 ≤ s.length := by
  simp only [leadFillerAlt] at h
  rw [mem_mtch_alt] at h
  rcases h with h | h
  · exact mtch_lit2repCls_spec 'え' 'ー' tsutoCls s cm r c' h
  rw [mem_mtch_alt] at h
  rcases h with h | h
  · obtain ⟨hc, hl⟩ := mtch_lit2_spec 'あ' 'ー' s cm r c' h
    exact ⟨hc, by omega⟩
  rw [mem_mtch_alt] at h
  rcases h with h | h
  · obtain ⟨hc, hl⟩ := mtch_lit2_spec 'う' 'ー' s cm r c' h
    exact ⟨hc, by omega⟩
  rw [mem_mtch_alt] at h
  rcases h with h | h
  · exact mtch_lit2repLit_spec 'あ' 'の' 'ー' s cm r c' h
  rw [mem_mtch_alt] at h
  rcases h with h | h
  · obtain ⟨hc, hl⟩ := mtch_lit3_spec 'え' 'っ' 'と' s cm r c' h
    exact ⟨hc, by omega⟩
  rw [mem_mtch_alt] at h
  rcases h with h | h
  · obtain ⟨hc, hl⟩ := mtch_lit2_spec 'ま' 'あ' s cm r c' h
    exact ⟨hc, by omega⟩
  rw [mem_mtch_alt] at h
  rcases h with h | h
  · obtain ⟨hc, hl⟩ := mtch_lit2_spec 'そ' 'の' s cm r c' h
    exact ⟨hc, by omega⟩
  · obtain ⟨hc, hl⟩ := mtch_lit3_spec 'な' 'ん' 'か' s cm r c' h
    exact ⟨hc, by omega⟩

theorem shrink_step13 : ShrinkRule step13.re step13.tmpl := by
  intro s r c' h
  simp only [step13] at h ⊢
  rw [mem_mtch_seq] at h
  obtain ⟨mid, hmid, hrest⟩ := h
  rw [mem_mtch_grp] at hmid
  obtain ⟨g0, hg0, heq⟩ := hmid
  obtain ⟨hg0c, hg0len⟩ := mtch_fillerAlt_spec s noCaps g0.1 g0.2 (by simpa using hg0)
  have hg0le : g0.1.length ≤ s.length := by omega
  have hglen : (s.take (s.length - g0.1.length)).length = s.length - g0.1.length := by
    rw [List.length_take]
    omega
  rw [heq, hg0c] at hrest
  have hcap : getCap (setCap noCaps 1 (s.take (s.length - g0.1.length))) 1
      = some (s.take (s.length - g0.1.length)) := getCap_set1 _ _
  rw [mem_mtch_seq] at hrest
  obtain ⟨m2, hm2, hrest2⟩ := hrest
  obtain ⟨hm2c, hm2len⟩ :=
    repCls_spec punctComma (setCap noCaps 1 (s.take (s.length - g0.1.length))) 1 none
      (by intro hh hhh; simp at hhh) g0.1 m2.1 m2.2 (by simpa using hm2)
  rw [hm2c] at hrest2
  rw [mem_mtch_seq] at hrest2
  obtain ⟨m3, hm3, hrest3⟩ := hrest2
  rw [mem_mtch_grp] at hm3
  obtain ⟨g4, hg4, heq4⟩ := hm3
  obtain ⟨hg4c, hg4len⟩ :=
    mtch_fillerAlt_spec m2.1 (setCap noCaps 1 (s.take (s.length - g0.1.length)))
      g4.1 g4.2 (by simpa using hg4)
  rw [heq4, hg4c] at hrest3
  obtain ⟨hc', hrlen⟩ :=
    repCls_spec punctComma
      (setCap (setCap noCaps 1 (s.take (s.length - g0.1.length))) 2
        (m2.1.take (m2.1.length - g4.1.length))) 0 none
      (by intro hh hhh; simp at hhh) g4.1 r c' hrest3
  rw [hc', instTmpl_grp1_lit, getCap1_set2, hcap]
  simp only [Option.getD_some, List.length_append, List.length_cons, List.length_nil]
  omega

theorem shrink_step14 : ShrinkRule step14.re step14.tmpl := by
  intro s r c' h
  simp only [step14] at h ⊢
  rw [mem_mtch_seq] at h
  obtain ⟨mid, hmid, hrest⟩ := h
  obtain ⟨hmc, hmlen⟩ := mtch_leadFillerAlt_spec s noCaps mid.1 mid.2 (by simpa using hmid)
  rw [hmc] at hrest
  obtain ⟨hc', hrlen⟩ :=
    repCls_spec punctComma noCaps 0 none (by intro hh hhh; simp at hhh) mid.1 r c' hrest
  rw [hc', instTmpl_nil]
  simp only [List.length_nil]
  omega

theorem allSteps_shrink : ∀ st ∈ stutterSteps, ShrinkRule st.re st.tmpl := by
  intro st hst
  fin_cases hst
  · exact shrink_step1
  · exact shrink_step2
  · exact shrink_step3
  · exact shrink_step4
  · exact shrink_step5
  · exact shrink_step6
  · exact shrink_step7
  · exact shrink_step8
  · exact shrink_step9
  · exact shrink_step10
  · exact shrink_step11
  · exact shrink_step12
  · exact shrink_step13
  · exact shrink_step14
  · exact shrink_step15
  · exact shrink_step16
  · exact shrink_step17
  · exact shrink_step18

theorem correctStuttering_main (s : String) :
    correctStuttering s = s ∨ (correctStuttering s).length < s.length := by
  unfold correctStuttering
  by_cases hs : s = ""
  · left
    rw [if_pos hs]
  · rw [if_neg hs]
    rcases foldl_applyStep_shrink stutterSteps allSteps_shrink s.data with h | h
    · left
      show String.mk (correctStutteringL s.data) = s
      unfold correctStutteringL
      rw [h]
    · right
      show (String.mk (correctStutteringL s.data)).length < s.length
      exact h

/-- C1 amended: correctStuttering is not idempotent in general; what holds
is that each application either returns its input unchanged or a strictly
shorter string (every source rewrite replaces a matched span by something
strictly shorter), so iterating the normalizer reaches a fixed point within
input-length many applications. -/
theorem correctStuttering_shrinks_or_fixes (s : String) :
    (correctStuttering s = s ∨ (correctStuttering s).length < s.length) ∧
    ∃ n, n ≤ s.length ∧
      correctStuttering^[n + 1] s = correctStuttering^[n] s := by
  refine ⟨correctStuttering_main s, ?_⟩
  have iterfix : ∀ (k : Nat) (s : String), s.length ≤ k →
      ∃ n, n ≤ s.length ∧
        correctStuttering^[n + 1] s = correctStuttering^[n] s := by
    intro k
    induction k with
    | zero =>
      intro s hk
      have hd : s.data = [] := by
        have hl : s.data.length = 0 := Nat.le_zero.mp hk
        exact List.eq_nil_of_length_eq_zero hl
      have hs : s = "" := String.ext (by rw [hd])
      subst hs
      refine ⟨0, Nat.zero_le _, ?_⟩
      simp only [Nat.zero_add, Function.iterate_one, Function.iterate_zero_apply]
      decide
    | succ k ih =>
      intro s hk
      rcases correctStuttering_main s with heq | hlt
      · exact ⟨0, Nat.zero_le _, by simpa using heq⟩
      · obtain ⟨n, hn, hfix⟩ := ih (correctStuttering s) (by omega)
        refine ⟨n + 1, by omega, ?_⟩
        rw [Function.iterate_succ_apply, Function.iterate_succ_apply]
        exact hfix
  exact iterfix s.length s (Nat.le_refl _)

-- ### C3 amended: the first rule's window is 2-8 characters

set_option maxHeartbeats 3000000 in
/-- C3 amended: the first rule (line 306) uses a 2-8 character window: a
phrase of 2 to 8 plain-text characters immediately followed by one exact
verbatim repetition collapses to a single occurrence. -/
theorem rule1_collapses_two_to_eight_char_square (w : List Char)
    (h2 : 2 ≤ w.length) (h8 : w.length ≤ 8)
    (hd : ∀ c ∈ w, dotCls c = true) : applyStep (w ++ w) step1 = w := by
  rcases w with _ | ⟨c1, _ | ⟨c2, _ | ⟨c3, _ | ⟨c4, _ | ⟨c5, _ | ⟨c6, _ | ⟨c7, _ | ⟨c8, _ | ⟨c9, rest⟩⟩⟩⟩⟩⟩⟩⟩⟩
  · simp at h2
  · simp at h2
  ·
    have d1 : dotCls c1 = true := hd c1 (by simp)
    have d2 : dotCls c2 = true := hd c2 (by simp)
    simp [applyStep, step1, reRule1, replaceAll, replaceAllAux, searchFrom, mtch,
      atomRep, atomMatch, instTmpl, noCaps, getCap, setCap, d1, d2,
      List.isPrefixOf]
  ·
    have d1 : dotCls c1 = true := hd c1 (by simp)
    have d2 : dotCls c2 = true := hd c2 (by simp)
    have d3 : dotCls c3 = true := hd c3 (by simp)
    simp [applyStep, step1, reRule1, replaceAll, replaceAllAux, searchFrom, mtch,
      atomRep, atomMatch, instTmpl, noCaps, getCap, setCap, d1, d2, d3,
      List.isPrefixOf]
  ·
    have d1 : dotCls c1 = true := hd c1 (by simp)
    have d2 : dotCls c2 = true := hd c2 (by simp)
    have d3 : dotCls c3 = true := hd c3 (by simp)
    have d4 : dotCls c4 = true := hd c4 (by simp)
    simp [applyStep, step1, reRule1, replaceAll, replaceAllAux, searchFrom, mtch,
      atomRep, atomMatch, instTmpl, noCaps, getCap, setCap, d1, d2, d3, d4,
      List.isPrefixOf]
  ·
    have d1 : dotCls c1 = true := hd c1 (by simp)
    have d2 : dotCls c2 = true := hd c2 (by simp)
    have d3 : dotCls c3 = true := hd c3 (by simp)
    have d4 : dotCls c4 = true := hd c4 (by simp)
    have d5 : dotCls c5 = true := hd c5 (by simp)
    simp [applyStep, step1, reRule1, replaceAll, replaceAllAux, searchFrom, mtch,
      atomRep, atomMatch, instTmpl, noCaps, getCap, setCap, d1, d2, d3, d4, d5,
      List.isPrefixOf]
  ·
    have d1 : dotCls c1 = true := hd c1 (by simp)
    have d2 : dotCls c2 = true := hd c2 (by simp)
    have d3 : dotCls c3 = true := hd c3 (by simp)
    have d4 : dotCls c4 = true := hd c4 (by simp)
    have d5 : dotCls c5 = true := hd c5 (by simp)
    have d6 : dotCls c6 = true := hd c6 (by simp)
    simp [applyStep, step1, reRule1, replaceAll, replaceAllAux, searchFrom, mtch,
      atomRep, atomMatch, instTmpl, noCaps, getCap, setCap, d1, d2, d3, d4, d5, d6,
      List.isPrefixOf]
  ·
    have d1 : dotCls c1 = true := hd c1 (by simp)
    have d2 : dotCls c2 = true := hd c2 (by simp)
    have d3 : dotCls c3 = true := hd c3 (by simp)
    have d4 : dotCls c4 = true := hd c4 (by simp)
    have d5 : dotCls c5 = true := hd c5 (by simp)
    have d6 : dotCls c6 = true := hd c6 (by simp)
    have d7 : dotCls c7 = true := hd c7 (by simp)
    simp [applyStep, step1, reRule1, replaceAll, replaceAllAux, searchFrom, mtch,
      atomRep, atomMatch, instTmpl, noCaps, getCap, setCap, d1, d2, d3, d4, d5, d6, d7,
      List.isPrefixOf]
  ·
    have d1 : dotCls c1 = true := hd c1 (by simp)
    have d2 : dotCls c2 = true := hd c2 (by simp)
    have d3 : dotCls c3 = true := hd c3 (by simp)
    have d4 : dotCls c4 = true := hd c4 (by simp)
    have d5 : dotCls c5 = true := hd c5 (by simp)
    have d6 : dotCls c6 = true := hd c6 (by simp)
    have d7 : dotCls c7 = true := hd c7 (by simp)
    have d8 : dotCls c8 = true := hd c8 (by simp)
    simp [applyStep, step1, reRule1, replaceAll, replaceAllAux, searchFrom, mtch,
      atomRep, atomMatch, instTmpl, noCaps, getCap, setCap, d1, d2, d3, d4, d5, d6, d7, d8,
      List.isPrefixOf]
  · simp at h8

/-- Witness for the amended C3 at the 3-character phrase 今日は. -/
theorem rule1_collapses_two_to_eight_char_square_witness :
    applyStep (("今日は").data ++ ("今日は").data) step1 = ("今日は").data :=
  rule1_collapses_two_to_eight_char_square (("今日は").data)
    (by decide) (by decide) (by decide)
